import Mathlib

/-!
Shallow embedding of the bitcask-rs storage engine (repository xyz2b/bitcask-rs)
and proofs about its record codec, engine operations, recovery scan, write
batches, merge and iterator. Bytes are modelled as natural numbers (values
below 256 wherever the Rust code produces them), files as lists of bytes,
and machine integers as Nat. Fallible Rust code returns an explicit result
type; a call of unwrap / expect on a failure value, and an explicit panic,
are modelled by a dedicated result constructor.
-/

/-- Error kinds from src/src/errors.rs (the subset reachable in the code
modelled here, with the source's spellings). -/
inductive Errors where
  | keyIsEmpty
  | keyNotFound
  | dataFileNotFound
  | readDataFileEof
  | invaildLogRecordCrc
  | exceedMaxBatchNum
  | uableToUseWriteBatch
  | mergeInProgress
deriving Repr, DecidableEq

/-- Result of running a piece of Rust code: `ok` for a normal value, `err`
for a returned `Err(Errors)` (src/src/errors.rs), `panics` for a panic
(including `unwrap` / `expect` on an error value). -/
inductive RRes (α : Type) where
  | ok (a : α) : RRes α
  | err (e : Errors) : RRes α
  | panics : RRes α
deriving Repr, DecidableEq

/-- Unwrap an `ok`, or fall back to a default (used only to build concrete
states in theorem statements). -/
def RRes.okOr {α : Type} (r : RRes α) (dflt : α) : α :=
  match r with
  | .ok a => a
  | _ => dflt

/-- Varint (LEB128) encoder of `prost::encode_length_delimiter`, as called by
src/src/data/log_record.rs and src/src/batch.rs: 7 payload bits per byte,
high bit set on every byte except the last. The structural fuel of 9 extra
bytes covers every value below `128 ^ 10 = 2 ^ 70`, which includes every
Rust `usize`. -/
def encodeVarintAux : Nat → Nat → List Nat
  | 0, n => [n]
  | fuel + 1, n => if n < 128 then [n] else (n % 128 + 128) :: encodeVarintAux fuel (n / 128)

/-- Varint encoding of a length, `prost::encode_length_delimiter`. -/
def encodeLengthDelimiter (n : Nat) : List Nat := encodeVarintAux 9 n

/-- Length in bytes of the varint encoding of `n`, `prost::length_delimiter_len`. -/
def lengthDelimiterLen (n : Nat) : Nat := (encodeLengthDelimiter n).length

/-- Varint decoder worker: `k` is the index of the current byte within the
varint. Returns the decoded value (scaled by the position of the first byte)
and the unconsumed rest, or `none` on a truncated or over-long (more than 10
bytes, as in prost) varint; `none` models a `DecodeError` from prost, which
every caller in the repository unwraps into a panic. -/
def decodeVarintAux : List Nat → Nat → Option (Nat × List Nat)
  | [], _ => none
  | b :: rest, k =>
    if 10 ≤ k then none
    else if b &&& 128 = 0 then some ((b &&& 127) * 2 ^ (7 * k), rest)
    else
      match decodeVarintAux rest (k + 1) with
      | some (v, r) => some ((b &&& 127) * 2 ^ (7 * k) + v, r)
      | none => none

/-- Varint decoder, `prost::decode_length_delimiter` on an advancing buffer:
returns the decoded value and the remaining bytes. -/
def decodeLengthDelimiter (bs : List Nat) : Option (Nat × List Nat) :=
  decodeVarintAux bs 0

/-- CRC-32 (IEEE) polynomial in reflected form, as used by the `crc32fast`
crate that src/src/data/log_record.rs computes record checksums with. -/
def crc32Poly : Nat := 0xEDB88320

/-- One bit step of the reflected CRC-32: shift right, conditionally XOR the
polynomial. -/
def crcBitStep (r : Nat) : Nat :=
  if r &&& 1 = 1 then (r >>> 1) ^^^ crc32Poly else r >>> 1

/-- CRC-32 table entry for index `i`: eight bit steps. -/
def crc32Table (i : Nat) : Nat := crcBitStep^[8] i

/-- One byte update of the running CRC-32 state. -/
def crc32Update (c b : Nat) : Nat :=
  (c >>> 8) ^^^ crc32Table ((c ^^^ b) &&& 255)

/-- CRC-32 of a byte list with the standard init and final complement;
agrees with `crc32fast::Hasher` (validated below against the checksum
constants asserted in the unit tests of src/src/data/log_record.rs). -/
def crc32 (bs : List Nat) : Nat :=
  (bs.foldl crc32Update 0xFFFFFFFF) ^^^ 0xFFFFFFFF

/-- Record type tag from src/src/data/log_record.rs. The source file in the
repository is an older revision declaring only `NORMAL` and `DELETE`;
`txnFinished` (wire value 3) is the third variant required by its callers
in src/src/db.rs and src/src/batch.rs. Modelled from the spec: §3 of the
specification fixes the encoding `type ∈ {NORMAL, DELETE, TXN_FINISHED}`
as one byte (1, 2, 3). -/
inductive LogRecordType where
  | normal
  | delete
  | txnFinished
deriving Repr, DecidableEq

/-- Wire value of a record type (`self.rec_type as u8`). -/
def LogRecordType.toU8 : LogRecordType → Nat
  | .normal => 1
  | .delete => 2
  | .txnFinished => 3

/-- The partial inverse `LogRecordType::from_u8` exactly as in the source
revision of src/src/data/log_record.rs: only 1 and 2 are accepted and any
other byte panics (`none` here). -/
def LogRecordType.fromU8 (v : Nat) : Option LogRecordType :=
  if v = 1 then some .normal
  else if v = 2 then some .delete
  else none

/-- A log record as framed on disk, src/src/data/log_record.rs. -/
structure LogRecord where
  key : List Nat
  value : List Nat
  recType : LogRecordType
deriving Repr, DecidableEq

/-- Big-endian byte split of a 32-bit value, modelling `BytesMut::put_u32`. -/
def u32BE (n : Nat) : List Nat :=
  [n / 2 ^ 24 % 256, n / 2 ^ 16 % 256, n / 2 ^ 8 % 256, n % 256]

/-- Big-endian read of the first four bytes, modelling `Bytes::get_u32`. -/
def readU32BE (bs : List Nat) : Nat :=
  bs.getD 0 0 * 2 ^ 24 + bs.getD 1 0 * 2 ^ 16 + bs.getD 2 0 * 2 ^ 8 + bs.getD 3 0

/-- CRC-covered part of a record's encoding: type byte, the two length
varints, key bytes, value bytes (`LogRecord::encode_and_get_crc` before the
checksum is appended). -/
def LogRecord.encodeBody (r : LogRecord) : List Nat :=
  r.recType.toU8 :: (encodeLengthDelimiter r.key.length ++
    (encodeLengthDelimiter r.value.length ++ (r.key ++ r.value)))

/-- Checksum of a record, `LogRecord::get_crc`. -/
def LogRecord.getCrc (r : LogRecord) : Nat := crc32 r.encodeBody

/-- Full encoding of a record, `LogRecord::encode`: body followed by the
four checksum bytes. -/
def LogRecord.encode (r : LogRecord) : List Nat :=
  r.encodeBody ++ u32BE r.getCrc

/-- Maximum header size allocated by the reader,
`max_log_record_header_size` in src/src/data/log_record.rs: literally
`size_of::<u8>() + length_delimiter_len(size_of::<u32>()) * 2`, where
`size_of::<u32>()` is the number 4 — so this is 1 + 1 * 2 = 3 bytes, not
the 11 bytes the wire format needs for multi-byte length varints. -/
def maxLogRecordHeaderSize : Nat := 1 + lengthDelimiterLen 4 * 2

/-- Positioned read of `len` bytes at `offset` into a zeroed buffer.
Modelled from the spec: the buffered-file I/O manager (src/src/fio/file_io.rs
is absent from the repository snapshot; §4.A of the specification defines
`read(buf, offset)` as a positioned read). Bytes beyond the end of the file
leave the zeroed buffer untouched, so the result always has length `len`. -/
def ioRead (file : List Nat) (len offset : Nat) : List Nat :=
  let avail := (file.drop offset).take len
  avail ++ List.replicate (len - avail.length) 0

/-- Read one record at `offset`, `DataFile::read_log_record` in
src/src/data/data_file.rs: read a `max_log_record_header_size()` framing
prefix, split off the type byte, decode the two length varints (a prost
decode failure is unwrapped into a panic), report EOF when both lengths are
zero, read key + value + 4 checksum bytes, rebuild the record (panicking on
an unknown type byte) and compare the stored checksum with a recomputed one.
Returns the record together with its total encoded size. -/
def readLogRecord (file : List Nat) (offset : Nat) : RRes (LogRecord × Nat) :=
  match ioRead file maxLogRecordHeaderSize offset with
  | [] => .panics
  | recTypeByte :: headerRest =>
    match decodeLengthDelimiter headerRest with
    | none => .panics
    | some (keySize, afterKeyLen) =>
      match decodeLengthDelimiter afterKeyLen with
      | none => .panics
      | some (valueSize, _) =>
        if keySize = 0 ∧ valueSize = 0 then .err .readDataFileEof
        else
          let actualHeaderSize := lengthDelimiterLen keySize + lengthDelimiterLen valueSize + 1
          let kvBuf := ioRead file (keySize + valueSize + 4) (offset + actualHeaderSize)
          match LogRecordType.fromU8 recTypeByte with
          | none => .panics
          | some rt =>
            let r : LogRecord := ⟨kvBuf.take keySize, (kvBuf.drop keySize).take valueSize, rt⟩
            if readU32BE (kvBuf.drop (keySize + valueSize)) = r.getCrc then
              .ok (r, actualHeaderSize + keySize + valueSize + 4)
            else .err .invaildLogRecordCrc

/-- Sanity check against the first checksum constant asserted by the unit
test `test_log_record_encode` in src/src/data/log_record.rs. -/
example :
    (LogRecord.mk [110, 97, 109, 101] [98, 105, 116, 99, 97, 115, 107, 45, 114, 115]
      .normal).getCrc = 1020360578 := by decide

/-- Sanity check against the second checksum constant (empty value). -/
example : (LogRecord.mk [110, 97, 109, 101] [] .normal).getCrc = 3756865478 := by decide

/-- Sanity check against the third checksum constant (DELETE type). -/
example :
    (LogRecord.mk [110, 97, 109, 101] [98, 105, 116, 99, 97, 115, 107, 45, 114, 115]
      .delete).getCrc = 1867197446 := by decide

/-! Basic facts about the varint codec. -/

/-- A byte below 128 has a clear continuation bit. -/
theorem and128_eq_zero_of_lt {n : Nat} (h : n < 128) : n &&& 128 = 0 := by
  have h2 : n &&& 2 ^ 7 = (n.testBit 7).toNat * 2 ^ 7 := Nat.and_two_pow n 7
  rw [Nat.testBit_lt_two_pow (by norm_num; omega)] at h2
  simpa using h2

/-- Masking a byte below 128 with 127 is the identity. -/
theorem and127_of_lt {n : Nat} (h : n < 128) : n &&& 127 = n := by
  have h2 : n &&& (2 ^ 7 - 1) = n % 2 ^ 7 := Nat.and_pow_two_sub_one_eq_mod n 7
  norm_num at h2
  omega

/-- A continuation byte `r + 128` (with `r < 128`) has its high bit set. -/
theorem contByte_and128 {r : Nat} (h : r < 128) : (r + 128) &&& 128 = 128 := by
  have h2 : (r + 128) &&& 2 ^ 7 = ((r + 128).testBit 7).toNat * 2 ^ 7 := Nat.and_two_pow _ 7
  have hbit : (r + 128).testBit 7 = true := by
    rw [Nat.testBit_to_div_mod]
    norm_num
    omega
  rw [hbit] at h2
  simpa using h2

/-- The payload bits of a continuation byte `r + 128` are `r`. -/
theorem contByte_and127 {r : Nat} (h : r < 128) : (r + 128) &&& 127 = r := by
  have h2 : (r + 128) &&& (2 ^ 7 - 1) = (r + 128) % 2 ^ 7 := Nat.and_pow_two_sub_one_eq_mod _ 7
  norm_num at h2
  omega

/-- Decoding an encoded varint (at byte position `k` within the varint)
recovers the value, scaled by the position, and leaves the rest untouched. -/
theorem decodeVarintAux_encodeVarintAux (fuel : Nat) :
    ∀ (n k : Nat) (rest : List Nat), n < 128 ^ (fuel + 1) → fuel + k ≤ 9 →
      decodeVarintAux (encodeVarintAux fuel n ++ rest) k = some (n * 2 ^ (7 * k), rest) := by
  induction fuel with
  | zero =>
    intro n k rest hn hk
    have hn' : n < 128 := by simpa using hn
    have h10 : ¬ 10 ≤ k := by omega
    simp [encodeVarintAux, decodeVarintAux, h10, and128_eq_zero_of_lt hn', and127_of_lt hn']
  | succ fuel ih =>
    intro n k rest hn hk
    by_cases h : n < 128
    · have h10 : ¬ 10 ≤ k := by omega
      simp [encodeVarintAux, h, decodeVarintAux, h10, and128_eq_zero_of_lt h, and127_of_lt h]
    · have hr : n % 128 < 128 := Nat.mod_lt n (by omega)
      have hdiv : n / 128 < 128 ^ (fuel + 1) := by
        rw [Nat.div_lt_iff_lt_mul (by omega)]
        calc n < 128 ^ (fuel + 1 + 1) := hn
        _ = 128 ^ (fuel + 1) * 128 := by ring
      have hrec := ih (n / 128) (k + 1) rest hdiv (by omega)
      have h10 : ¬ 10 ≤ k := by omega
      have hcont : ¬ ((n % 128 + 128) &&& 128 = 0) := by
        rw [contByte_and128 hr]; omega
      simp only [encodeVarintAux, if_neg h, List.cons_append, decodeVarintAux, if_neg h10,
        if_neg hcont, contByte_and127 hr, hrec]
      have hpow : (2 : Nat) ^ (7 * (k + 1)) = 2 ^ (7 * k) * 128 := by
        rw [Nat.mul_succ, pow_add]; norm_num
      have hsplit : n % 128 * 2 ^ (7 * k) + n / 128 * (2 ^ (7 * k) * 128)
          = (n % 128 + n / 128 * 128) * 2 ^ (7 * k) := by ring
      have hdm : n % 128 + n / 128 * 128 = n := by omega
      rw [hpow, hsplit, hdm]

/-- Roundtrip of the length-delimiter codec for every value a Rust `usize`
can hold (in fact up to `2 ^ 70`). -/
theorem decodeLengthDelimiter_encode {n : Nat} (rest : List Nat) (h : n < 128 ^ 10) :
    decodeLengthDelimiter (encodeLengthDelimiter n ++ rest) = some (n, rest) := by
  have := decodeVarintAux_encodeVarintAux 9 n 0 rest h (by omega)
  simpa [decodeLengthDelimiter, encodeLengthDelimiter] using this

/-- A length below 128 is encoded as a single byte. -/
theorem encodeLengthDelimiter_of_lt {n : Nat} (h : n < 128) : encodeLengthDelimiter n = [n] := by
  simp [encodeLengthDelimiter, encodeVarintAux, h]

/-- A length below 128 has a one-byte varint. -/
theorem lengthDelimiterLen_of_lt {n : Nat} (h : n < 128) : lengthDelimiterLen n = 1 := by
  simp [lengthDelimiterLen, encodeLengthDelimiter_of_lt h]

/-! Basic facts about positioned reads. -/

/-- A positioned read always returns exactly `len` bytes. -/
theorem ioRead_length (file : List Nat) (len offset : Nat) :
    (ioRead file len offset).length = len := by
  simp only [ioRead, List.length_append, List.length_take, List.length_replicate,
    List.length_drop]
  omega

/-- A positioned read that fits entirely inside the file takes bytes verbatim. -/
theorem ioRead_of_fits {pre rest : List Nat} {len : Nat} (h : len ≤ rest.length) :
    ioRead (pre ++ rest) len pre.length = rest.take len := by
  simp only [ioRead, List.drop_left, List.length_take]
  have : min len rest.length = len := by omega
  rw [this]
  simp

/-! Bounds for the CRC-32 implementation. -/

/-- One CRC bit step keeps the state inside 32 bits. -/
theorem crcBitStep_lt {r : Nat} (h : r < 2 ^ 32) : crcBitStep r < 2 ^ 32 := by
  have hs : r >>> 1 < 2 ^ 32 := by
    rw [Nat.shiftRight_eq_div_pow]
    omega
  unfold crcBitStep
  split
  · exact Nat.xor_lt_two_pow hs (by norm_num [crc32Poly])
  · exact hs

/-- Iterated CRC bit steps keep the state inside 32 bits. -/
theorem crcBitStep_iterate_lt (n : Nat) {r : Nat} (h : r < 2 ^ 32) :
    crcBitStep^[n] r < 2 ^ 32 := by
  induction n generalizing r with
  | zero => simpa using h
  | succ n ih =>
    rw [Function.iterate_succ_apply]
    exact ih (crcBitStep_lt h)

/-- Table entries are 32-bit values. -/
theorem crc32Table_lt {i : Nat} (h : i < 2 ^ 32) : crc32Table i < 2 ^ 32 :=
  crcBitStep_iterate_lt 8 h

/-- One byte update keeps the CRC state inside 32 bits. -/
theorem crc32Update_lt {c : Nat} (b : Nat) (h : c < 2 ^ 32) : crc32Update c b < 2 ^ 32 := by
  unfold crc32Update
  refine Nat.xor_lt_two_pow ?_ (crc32Table_lt ?_)
  · rw [Nat.shiftRight_eq_div_pow]; omega
  · have : (c ^^^ b) &&& 255 = (c ^^^ b) % 256 := by
      have := Nat.and_pow_two_sub_one_eq_mod (c ^^^ b) 8
      norm_num at this
      omega
    omega

/-- Folding byte updates keeps the CRC state inside 32 bits. -/
theorem crc32_foldl_lt (bs : List Nat) : ∀ {c : Nat}, c < 2 ^ 32 →
    bs.foldl crc32Update c < 2 ^ 32 := by
  induction bs with
  | nil => intro c h; simpa using h
  | cons b bs ih => intro c h; exact ih (crc32Update_lt b h)

/-- The CRC-32 of any byte list is a 32-bit value. -/
theorem crc32_lt (bs : List Nat) : crc32 bs < 2 ^ 32 :=
  Nat.xor_lt_two_pow (crc32_foldl_lt bs (by norm_num)) (by norm_num)

/-- Reading back the big-endian split of a 32-bit value recovers it. -/
theorem readU32BE_u32BE {c : Nat} (h : c < 2 ^ 32) : readU32BE (u32BE c) = c := by
  simp only [readU32BE, u32BE, List.getD_cons_zero, List.getD_cons_succ]
  have h24 : (2 : Nat) ^ 24 = 16777216 := by norm_num
  have h16 : (2 : Nat) ^ 16 = 65536 := by norm_num
  have h8 : (2 : Nat) ^ 8 = 256 := by norm_num
  have h32 : (2 : Nat) ^ 32 = 4294967296 := by norm_num
  rw [h24, h16, h8]
  rw [h24, h16, h8] at *
  omega

/-! Roundtrip of the record codec for records whose framing fits the
3-byte header the reader actually allocates. -/

/-- Encoded body of a record with single-byte length varints. -/
theorem encodeBody_small {r : LogRecord} (hk : r.key.length < 128) (hv : r.value.length < 128) :
    r.encodeBody
      = r.recType.toU8 :: r.key.length :: r.value.length :: (r.key ++ r.value) := by
  simp [LogRecord.encodeBody, encodeLengthDelimiter_of_lt hk, encodeLengthDelimiter_of_lt hv]

/-- Length of a record's encoding: actual header size plus payload plus the
four checksum bytes. -/
theorem encode_length (r : LogRecord) :
    r.encode.length
      = (lengthDelimiterLen r.key.length + lengthDelimiterLen r.value.length + 1)
        + r.key.length + r.value.length + 4 := by
  simp [LogRecord.encode, LogRecord.encodeBody, u32BE, lengthDelimiterLen]
  omega

/-- Decoding a wire type byte produced by an encodable record type succeeds
(the old `from_u8` knows nothing about `TxnFinished`, so that one is
excluded). -/
theorem fromU8_toU8 {rt : LogRecordType} (h : rt ≠ .txnFinished) :
    LogRecordType.fromU8 rt.toU8 = some rt := by
  cases rt with
  | normal => rfl
  | delete => rfl
  | txnFinished => exact absurd rfl h

/-- Reading an encoded record back at its offset returns an equal record
and its total encoded size, for any surrounding file content — provided the
key is non-empty, both lengths fit a one-byte varint (the reader only
allocates a 3-byte framing prefix) and the type is one the reader's
`from_u8` knows. -/
theorem readLogRecord_encode (r : LogRecord) (pre suf : List Nat)
    (hk : r.key.length < 128) (hkne : r.key ≠ []) (hv : r.value.length < 128)
    (ht : r.recType ≠ .txnFinished) :
    readLogRecord (pre ++ r.encode ++ suf) pre.length = .ok (r, r.encode.length) := by
  have hklen : r.key.length ≠ 0 := by
    simpa [List.length_eq_zero] using hkne
  have henc : r.encode
      = r.recType.toU8 :: r.key.length :: r.value.length
          :: ((r.key ++ r.value) ++ u32BE r.getCrc) := by
    simp [LogRecord.encode, encodeBody_small hk hv]
  have hhdr : ioRead (pre ++ r.encode ++ suf) maxLogRecordHeaderSize pre.length
      = [r.recType.toU8, r.key.length, r.value.length] := by
    have hm : maxLogRecordHeaderSize = 3 := rfl
    rw [hm, List.append_assoc, ioRead_of_fits (by rw [henc]; simp)]
    rw [henc]
    rfl
  have hdk : decodeLengthDelimiter [r.key.length, r.value.length]
      = some (r.key.length, [r.value.length]) := by
    have h10 : r.key.length < 128 ^ 10 := lt_trans hk (by norm_num)
    have := @decodeLengthDelimiter_encode r.key.length [r.value.length] h10
    rwa [encodeLengthDelimiter_of_lt hk, List.singleton_append] at this
  have hdv : decodeLengthDelimiter [r.value.length] = some (r.value.length, []) := by
    have h10 : r.value.length < 128 ^ 10 := lt_trans hv (by norm_num)
    have := @decodeLengthDelimiter_encode r.value.length [] h10
    rwa [encodeLengthDelimiter_of_lt hv, List.append_nil] at this
  have hkv : ioRead (pre ++ r.encode ++ suf) (r.key.length + r.value.length + 4)
      (pre.length + (lengthDelimiterLen r.key.length + lengthDelimiterLen r.value.length + 1))
      = (r.key ++ r.value) ++ u32BE r.getCrc := by
    have hregroup : pre ++ r.encode ++ suf
        = (pre ++ [r.recType.toU8, r.key.length, r.value.length])
            ++ (((r.key ++ r.value) ++ u32BE r.getCrc) ++ suf) := by
      rw [henc]; simp
    have hofflen : pre.length
          + (lengthDelimiterLen r.key.length + lengthDelimiterLen r.value.length + 1)
        = (pre ++ [r.recType.toU8, r.key.length, r.value.length]).length := by
      simp [lengthDelimiterLen_of_lt hk, lengthDelimiterLen_of_lt hv]
    rw [hregroup, hofflen, ioRead_of_fits (by simp [u32BE]; omega)]
    refine List.take_left' ?_
    simp [u32BE]
    omega
  have hcrcbytes : (((r.key ++ r.value) ++ u32BE r.getCrc).drop
      (r.key.length + r.value.length)) = u32BE r.getCrc :=
    List.drop_left' (by simp)
  have hkeypart : (((r.key ++ r.value) ++ u32BE r.getCrc).take r.key.length) = r.key := by
    rw [List.append_assoc]
    exact List.take_left' rfl
  have hvalpart : ((((r.key ++ r.value) ++ u32BE r.getCrc).drop r.key.length).take
      r.value.length) = r.value := by
    rw [List.append_assoc, List.drop_left' rfl]
    exact List.take_left' rfl
  unfold readLogRecord
  rw [hhdr]
  simp only [hdk, hdv]
  rw [if_neg (by rintro ⟨h1, _⟩; exact hklen h1)]
  simp only [hkv, fromU8_toU8 ht, hkeypart, hvalpart, hcrcbytes]
  have hlt : r.getCrc < 2 ^ 32 := crc32_lt r.encodeBody
  rw [readU32BE_u32BE hlt, if_pos rfl, encode_length]

/-! Single-bit error detection of the CRC-32: the GF(2)-linearity of the
byte update propagates any single-bit difference through the rest of the
input without ever cancelling it. -/

/-- Shift-right distributes over XOR. -/
theorem shiftRight_xor_distrib (a b n : Nat) : (a ^^^ b) >>> n = (a >>> n) ^^^ (b >>> n) := by
  apply Nat.eq_of_testBit_eq
  intro i
  simp [Nat.testBit_shiftRight, Nat.testBit_xor]

/-- The low bit of a value is zero when it is not one. -/
theorem and_one_eq_zero_of_ne {a : Nat} (h : ¬ a &&& 1 = 1) : a &&& 1 = 0 := by
  have := Nat.and_one_is_mod a
  omega

/-- One CRC bit step is GF(2)-linear. -/
theorem crcBitStep_xor (a b : Nat) : crcBitStep (a ^^^ b) = crcBitStep a ^^^ crcBitStep b := by
  have hpar : (a ^^^ b) &&& 1 = (a &&& 1) ^^^ (b &&& 1) := Nat.and_xor_distrib_right
  unfold crcBitStep
  by_cases ha : a &&& 1 = 1 <;> by_cases hb : b &&& 1 = 1
  · have hab : ¬ (a ^^^ b) &&& 1 = 1 := by rw [hpar, ha, hb]; decide
    rw [if_pos ha, if_pos hb, if_neg hab, shiftRight_xor_distrib]
    rw [Nat.xor_assoc, Nat.xor_comm crc32Poly, Nat.xor_assoc, Nat.xor_self, Nat.xor_zero]
  · have hab : (a ^^^ b) &&& 1 = 1 := by
      rw [hpar, ha, and_one_eq_zero_of_ne hb]
      decide
    rw [if_pos ha, if_neg hb, if_pos hab, shiftRight_xor_distrib]
    rw [Nat.xor_assoc, Nat.xor_assoc, Nat.xor_comm crc32Poly]
  · have hab : (a ^^^ b) &&& 1 = 1 := by
      rw [hpar, and_one_eq_zero_of_ne ha, hb]
      decide
    rw [if_neg ha, if_pos hb, if_pos hab, shiftRight_xor_distrib, Nat.xor_assoc]
  · have hab : ¬ (a ^^^ b) &&& 1 = 1 := by
      rw [hpar, and_one_eq_zero_of_ne ha, and_one_eq_zero_of_ne hb]; decide
    rw [if_neg ha, if_neg hb, if_neg hab, shiftRight_xor_distrib]

/-- Iterated CRC bit steps are GF(2)-linear. -/
theorem crcBitStep_iterate_xor (n a b : Nat) :
    crcBitStep^[n] (a ^^^ b) = crcBitStep^[n] a ^^^ crcBitStep^[n] b := by
  induction n generalizing a b with
  | zero => rfl
  | succ n ih => rw [Function.iterate_succ_apply, Function.iterate_succ_apply,
      Function.iterate_succ_apply, crcBitStep_xor, ih]

/-- The CRC table is GF(2)-linear in its index. -/
theorem crc32Table_xor (a b : Nat) : crc32Table (a ^^^ b) = crc32Table a ^^^ crc32Table b :=
  crcBitStep_iterate_xor 8 a b

/-- The XOR difference of two byte updates on the same byte depends only on
the XOR difference of the states. -/
theorem crc32Update_xor_diff (c1 c2 b : Nat) :
    crc32Update c1 b ^^^ crc32Update c2 b
      = ((c1 ^^^ c2) >>> 8) ^^^ crc32Table ((c1 ^^^ c2) &&& 255) := by
  unfold crc32Update
  have hidx : (c1 ^^^ b) ^^^ (c2 ^^^ b) = c1 ^^^ c2 := by
    rw [Nat.xor_assoc, Nat.xor_comm b, Nat.xor_assoc, Nat.xor_self, Nat.xor_zero]
  have htbl : crc32Table ((c1 ^^^ b) &&& 255) ^^^ crc32Table ((c2 ^^^ b) &&& 255)
      = crc32Table ((c1 ^^^ c2) &&& 255) := by
    rw [← crc32Table_xor, ← Nat.and_xor_distrib_right, hidx]
  rw [← htbl, shiftRight_xor_distrib]
  rw [Nat.xor_assoc, Nat.xor_assoc]
  congr 1
  rw [← Nat.xor_assoc, Nat.xor_comm (crc32Table ((c1 ^^^ b) &&& 255)), Nat.xor_assoc]

/-- The table entry of index zero is zero. -/
theorem crc32Table_zero : crc32Table 0 = 0 := by decide

set_option maxRecDepth 4096 in
/-- Every nonzero table entry has a set bit in its top byte. -/
theorem crc32Table_high : ∀ j : Fin 256, j.val ≠ 0 → 2 ^ 24 ≤ crc32Table j.val := by decide

/-- The table entry of a single payload bit is nonzero. -/
theorem crc32Table_pow_ne : ∀ m : Fin 8, crc32Table (2 ^ m.val) ≠ 0 := by decide

/-- A nonzero 32-bit state difference survives one byte update. -/
theorem stepDiff_ne_zero {d : Nat} (hd : d ≠ 0) (hlt : d < 2 ^ 32) :
    (d >>> 8) ^^^ crc32Table (d &&& 255) ≠ 0 := by
  intro h0
  have heq : d >>> 8 = crc32Table (d &&& 255) := Nat.xor_eq_zero.mp h0
  have hj : d &&& 255 = d % 256 := by
    have := Nat.and_pow_two_sub_one_eq_mod d 8
    norm_num at this
    omega
  have hdiv : d >>> 8 = d / 256 := by
    rw [Nat.shiftRight_eq_div_pow]
  by_cases hz : d % 256 = 0
  · rw [hj, hz, crc32Table_zero, hdiv] at heq
    omega
  · have hlt256 : d &&& 255 < 256 := by omega
    have hge : 2 ^ 24 ≤ crc32Table (d &&& 255) :=
      crc32Table_high ⟨d &&& 255, hlt256⟩ (by simpa [hj] using hz)
    have hsmall : d >>> 8 < 2 ^ 24 := by
      rw [hdiv]
      norm_num at hlt ⊢
      omega
    omega

/-- Two distinct 32-bit CRC states stay distinct under any common byte. -/
theorem crc32Update_ne {c1 c2 : Nat} (b : Nat) (h1 : c1 < 2 ^ 32) (h2 : c2 < 2 ^ 32)
    (hne : c1 ≠ c2) : crc32Update c1 b ≠ crc32Update c2 b := by
  intro h
  have hx : crc32Update c1 b ^^^ crc32Update c2 b = 0 := by rw [h, Nat.xor_self]
  rw [crc32Update_xor_diff] at hx
  exact stepDiff_ne_zero (fun hz => hne (Nat.xor_eq_zero.mp hz))
    (Nat.xor_lt_two_pow h1 h2) hx

/-- Two distinct 32-bit CRC states stay distinct under any common suffix. -/
theorem crc32_foldl_ne (bs : List Nat) : ∀ {c1 c2 : Nat}, c1 < 2 ^ 32 → c2 < 2 ^ 32 →
    c1 ≠ c2 → bs.foldl crc32Update c1 ≠ bs.foldl crc32Update c2 := by
  induction bs with
  | nil => intro c1 c2 _ _ hne; simpa using hne
  | cons b bs ih =>
    intro c1 c2 h1 h2 hne
    exact ih (crc32Update_lt b h1) (crc32Update_lt b h2) (crc32Update_ne b h1 h2 hne)

/-- Flipping one bit of one byte changes the CRC-32 of the whole list. -/
theorem crc32_flip_cons_ne (xs ys : List Nat) (b m : Nat) (hm : m < 8) :
    crc32 (xs ++ (b ^^^ 2 ^ m) :: ys) ≠ crc32 (xs ++ b :: ys) := by
  unfold crc32
  intro h
  have hfold : (xs ++ (b ^^^ 2 ^ m) :: ys).foldl crc32Update 0xFFFFFFFF
      = (xs ++ b :: ys).foldl crc32Update 0xFFFFFFFF := by
    have := congrArg (fun t => t ^^^ 0xFFFFFFFF) h
    simpa [Nat.xor_cancel_right] using this
  rw [List.foldl_append, List.foldl_append, List.foldl_cons, List.foldl_cons] at hfold
  have hc : xs.foldl crc32Update 0xFFFFFFFF < 2 ^ 32 := crc32_foldl_lt xs (by norm_num)
  set c := xs.foldl crc32Update 0xFFFFFFFF with hcdef
  have hpm : (2 : Nat) ^ m &&& 255 = 2 ^ m := by
    have hsm : (2 : Nat) ^ m < 256 :=
      lt_of_le_of_lt (Nat.pow_le_pow_right (by norm_num) (by omega : m ≤ 7)) (by norm_num)
    have hmask := Nat.and_pow_two_sub_one_eq_mod ((2 : Nat) ^ m) 8
    norm_num at hmask
    rw [hmask, Nat.mod_eq_of_lt hsm]
  have hdiff : crc32Update c (b ^^^ 2 ^ m) ^^^ crc32Update c b = crc32Table (2 ^ m) := by
    unfold crc32Update
    have hshift : c >>> 8 ^^^ c >>> 8 = 0 := Nat.xor_self _
    have hidx : (c ^^^ (b ^^^ 2 ^ m)) = (c ^^^ b) ^^^ 2 ^ m := by
      rw [Nat.xor_assoc]
    have hand : ((c ^^^ b) ^^^ 2 ^ m) &&& 255 = ((c ^^^ b) &&& 255) ^^^ 2 ^ m := by
      rw [Nat.and_xor_distrib_right, hpm]
    rw [hidx, hand, crc32Table_xor]
    rw [Nat.xor_comm (c >>> 8), Nat.xor_assoc, ← Nat.xor_assoc (c >>> 8), Nat.xor_self,
      Nat.zero_xor, Nat.xor_assoc, Nat.xor_comm (crc32Table ((c ^^^ b) &&& 255)),
      Nat.xor_assoc, Nat.xor_self, Nat.xor_zero]
  have hne : crc32Update c (b ^^^ 2 ^ m) ≠ crc32Update c b := by
    intro he
    rw [he, Nat.xor_self] at hdiff
    exact crc32Table_pow_ne ⟨m, hm⟩ hdiff.symm
  exact crc32_foldl_ne ys (crc32Update_lt _ hc) (crc32Update_lt _ hc) hne hfold

/-- Flip bit `m` (within a byte) of byte `i` of a byte list. -/
def flipByte (bs : List Nat) (i m : Nat) : List Nat :=
  bs.set i (bs.getD i 0 ^^^ 2 ^ m)

/-- Flipping a single bit anywhere in a byte list changes its CRC-32. -/
theorem crc32_flipByte_ne (bs : List Nat) (i m : Nat) (hi : i < bs.length) (hm : m < 8) :
    crc32 (flipByte bs i m) ≠ crc32 bs := by
  have hset : flipByte bs i m = bs.take i ++ (bs.getD i 0 ^^^ 2 ^ m) :: bs.drop (i + 1) :=
    List.set_eq_take_cons_drop _ hi
  have hsplit : bs = bs.take i ++ bs.getD i 0 :: bs.drop (i + 1) := by
    conv_lhs => rw [← List.take_append_drop i bs]
    congr 1
    rw [List.getD_eq_getElem _ _ hi]
    exact List.drop_eq_getElem_cons hi
  rw [hset]
  conv_rhs => rw [hsplit]
  exact crc32_flip_cons_ne _ _ _ _ hm

/-! Reading a record whose payload bytes were corrupted by one bit flip. -/

/-- Flipping a bit inside the key/value payload region of an encoded record
(byte indices 3 up to 3 + key length + value length, given single-byte
length varints) leaves the framing parse intact but makes the recomputed
checksum disagree with the stored one, so the read is rejected with
`InvalidRecordCrc`. -/
theorem readLogRecord_flip (r : LogRecord) (pre suf : List Nat) (i m : Nat)
    (hk : r.key.length < 128) (hkne : r.key ≠ []) (hv : r.value.length < 128)
    (ht : r.recType ≠ .txnFinished) (hi3 : 3 ≤ i)
    (hiub : i < 3 + r.key.length + r.value.length) (hm : m < 8) :
    readLogRecord (pre ++ flipByte r.encode i m ++ suf) pre.length
      = .err .invaildLogRecordCrc := by
  have hklen : r.key.length ≠ 0 := by
    simpa [List.length_eq_zero] using hkne
  have hbody : r.encodeBody
      = r.recType.toU8 :: r.key.length :: r.value.length :: (r.key ++ r.value) :=
    encodeBody_small hk hv
  have hbodylen : r.encodeBody.length = 3 + r.key.length + r.value.length := by
    rw [hbody]; simp; omega
  have hibody : i < r.encodeBody.length := by omega
  -- the flip stays inside the CRC-covered body
  have hflip : flipByte r.encode i m = flipByte r.encodeBody i m ++ u32BE r.getCrc := by
    unfold flipByte LogRecord.encode
    rw [List.set_append_left _ _ hibody]
    congr 2
    rw [List.getD_eq_getElem _ _ hibody,
      List.getD_eq_getElem _ _ (by simp [LogRecord.encode]; omega)]
    rw [List.getElem_append_left hibody]
  -- shape of the flipped body: header untouched, payload flipped
  have hfb : flipByte r.encodeBody i m
      = r.recType.toU8 :: r.key.length :: r.value.length
          :: ((r.key ++ r.value).set (i - 3) ((r.key ++ r.value).getD (i - 3) 0 ^^^ 2 ^ m)) := by
    unfold flipByte
    rw [hbody]
    obtain ⟨j, rfl⟩ : ∃ j, i = j + 3 := ⟨i - 3, by omega⟩
    simp [List.set, List.getD]
  set p := (r.key ++ r.value).set (i - 3) ((r.key ++ r.value).getD (i - 3) 0 ^^^ 2 ^ m)
    with hpdef
  have hplen : p.length = r.key.length + r.value.length := by
    simp [hpdef]
  -- the flipped body has a different checksum
  have hcrcne : crc32 (flipByte r.encodeBody i m) ≠ crc32 r.encodeBody :=
    crc32_flipByte_ne r.encodeBody i m hibody hm
  have hcrcne' : crc32 (r.recType.toU8 :: r.key.length :: r.value.length :: p)
      ≠ r.getCrc := by
    rw [← hfb]
    exact hcrcne
  -- header read of the corrupted record
  have hfile : pre ++ flipByte r.encode i m ++ suf
      = pre ++ (r.recType.toU8 :: r.key.length :: r.value.length
          :: (p ++ u32BE r.getCrc)) ++ suf := by
    rw [hflip, hfb]
    simp
  have hhdr : ioRead (pre ++ flipByte r.encode i m ++ suf) maxLogRecordHeaderSize pre.length
      = [r.recType.toU8, r.key.length, r.value.length] := by
    have hm3 : maxLogRecordHeaderSize = 3 := rfl
    rw [hfile, hm3, List.append_assoc, ioRead_of_fits (by simp)]
    rfl
  have hdk : decodeLengthDelimiter [r.key.length, r.value.length]
      = some (r.key.length, [r.value.length]) := by
    have h10 : r.key.length < 128 ^ 10 := lt_trans hk (by norm_num)
    have := @decodeLengthDelimiter_encode r.key.length [r.value.length] h10
    rwa [encodeLengthDelimiter_of_lt hk, List.singleton_append] at this
  have hdv : decodeLengthDelimiter [r.value.length] = some (r.value.length, []) := by
    have h10 : r.value.length < 128 ^ 10 := lt_trans hv (by norm_num)
    have := @decodeLengthDelimiter_encode r.value.length [] h10
    rwa [encodeLengthDelimiter_of_lt hv, List.append_nil] at this
  have hkv : ioRead (pre ++ flipByte r.encode i m ++ suf)
      (r.key.length + r.value.length + 4)
      (pre.length + (lengthDelimiterLen r.key.length + lengthDelimiterLen r.value.length + 1))
      = p ++ u32BE r.getCrc := by
    have hregroup : pre ++ flipByte r.encode i m ++ suf
        = (pre ++ [r.recType.toU8, r.key.length, r.value.length])
            ++ ((p ++ u32BE r.getCrc) ++ suf) := by
      rw [hfile]; simp
    have hofflen : pre.length
          + (lengthDelimiterLen r.key.length + lengthDelimiterLen r.value.length + 1)
        = (pre ++ [r.recType.toU8, r.key.length, r.value.length]).length := by
      simp [lengthDelimiterLen_of_lt hk, lengthDelimiterLen_of_lt hv]
    rw [hregroup, hofflen, ioRead_of_fits (by simp [u32BE]; omega)]
    refine List.take_left' ?_
    simp [u32BE]
    omega
  have hcrcbytes : ((p ++ u32BE r.getCrc).drop (r.key.length + r.value.length))
      = u32BE r.getCrc :=
    List.drop_left' hplen
  have htake : (p ++ u32BE r.getCrc).take r.key.length = p.take r.key.length :=
    List.take_append_of_le_length (by rw [hplen]; omega)
  have hdroptake : ((p ++ u32BE r.getCrc).drop r.key.length).take r.value.length
      = p.drop r.key.length := by
    rw [List.drop_append_of_le_length (by rw [hplen]; omega)]
    rw [List.take_append_of_le_length (by rw [List.length_drop, hplen]; omega)]
    exact List.take_of_length_le (by rw [List.length_drop, hplen]; omega)
  have hkl : ((p ++ u32BE r.getCrc).take r.key.length).length = r.key.length := by
    rw [htake, List.length_take, hplen]
    omega
  have hvl : (((p ++ u32BE r.getCrc).drop r.key.length).take r.value.length).length
      = r.value.length := by
    rw [hdroptake, List.length_drop, hplen]
    omega
  have hkeyval : ((p ++ u32BE r.getCrc).take r.key.length)
        ++ (((p ++ u32BE r.getCrc).drop r.key.length).take r.value.length) = p := by
    rw [htake, hdroptake, List.take_append_drop]
  have hbody' : (LogRecord.mk ((p ++ u32BE r.getCrc).take r.key.length)
        (((p ++ u32BE r.getCrc).drop r.key.length).take r.value.length)
        r.recType).encodeBody
      = r.recType.toU8 :: r.key.length :: r.value.length :: p := by
    unfold LogRecord.encodeBody
    simp only [hkl, hvl]
    rw [encodeLengthDelimiter_of_lt hk, encodeLengthDelimiter_of_lt hv]
    simp [hkeyval]
  have hneq : ¬ (r.getCrc = (LogRecord.mk ((p ++ u32BE r.getCrc).take r.key.length)
        (((p ++ u32BE r.getCrc).drop r.key.length).take r.value.length)
        r.recType).getCrc) := by
    intro hcontra
    apply hcrcne'
    calc crc32 (r.recType.toU8 :: r.key.length :: r.value.length :: p)
        = (LogRecord.mk ((p ++ u32BE r.getCrc).take r.key.length)
            (((p ++ u32BE r.getCrc).drop r.key.length).take r.value.length)
            r.recType).getCrc := by rw [LogRecord.getCrc, hbody']
      _ = r.getCrc := hcontra.symm
  unfold readLogRecord
  rw [hhdr]
  simp only [hdk, hdv]
  rw [if_neg (by rintro ⟨h1, _⟩; exact hklen h1)]
  simp only [hkv, fromU8_toU8 ht, hcrcbytes]
  have hlt : r.getCrc < 2 ^ 32 := crc32_lt r.encodeBody
  rw [readU32BE_u32BE hlt, if_neg hneq]

/-! In-memory locators and the index backends. -/

/-- In-memory record locator, src/src/data/log_record.rs `LogRecordPos`.
The repository's copy of that file is an older revision without the `size`
field. Modelled from the spec: §3 defines `size` (encoded byte length,
needed for reclaim accounting), and src/src/db.rs, src/src/batch.rs and
src/src/index/bptree.rs all construct and read `pos.size`. -/
structure LogRecordPos where
  fileId : Nat
  offset : Nat
  size : Nat
deriving Repr, DecidableEq

/-- Encoding of a locator as concatenated varints. Modelled from the spec:
§4.B defines the `LogRecordPos` encoding as the varints of `file_id`,
`offset`, `size`; the function `LogRecordPos::encode` is called by
src/src/index/bptree.rs and src/src/data/data_file.rs but absent from the
old src/src/data/log_record.rs. -/
def LogRecordPos.encode (p : LogRecordPos) : List Nat :=
  encodeLengthDelimiter p.fileId ++ encodeLengthDelimiter p.offset
    ++ encodeLengthDelimiter p.size

/-- Decoding of a locator, `decode_log_record_pos`. Modelled from the spec:
§4.B ("Decoded with the inverse"); absent from the old
src/src/data/log_record.rs but called by src/src/index/bptree.rs and
src/src/merge.rs. A malformed input yields `none`. -/
def decodeLogRecordPos (bs : List Nat) : Option LogRecordPos :=
  match decodeLengthDelimiter bs with
  | none => none
  | some (fid, r1) =>
    match decodeLengthDelimiter r1 with
    | none => none
    | some (off, r2) =>
      match decodeLengthDelimiter r2 with
      | none => none
      | some (sz, _) => some ⟨fid, off, sz⟩

/-- Roundtrip of the locator codec for 64-bit field values. -/
theorem decodeLogRecordPos_encode (p : LogRecordPos) (hf : p.fileId < 128 ^ 10)
    (ho : p.offset < 128 ^ 10) (hs : p.size < 128 ^ 10) :
    decodeLogRecordPos p.encode = some p := by
  unfold decodeLogRecordPos LogRecordPos.encode
  rw [List.append_assoc]
  have h3 := @decodeLengthDelimiter_encode p.size [] hs
  rw [List.append_nil] at h3
  simp only [decodeLengthDelimiter_encode _ hf, decodeLengthDelimiter_encode _ ho, h3]

/-- Association-list map from keys to locators: the common model of the
ordered map underlying each index backend. -/
abbrev IndexMap := List (List Nat × LogRecordPos)

/-- Lookup in an index map (first match). -/
def idxGet : IndexMap → List Nat → Option LogRecordPos
  | [], _ => none
  | (k', p) :: rest, k => if k' = k then some p else idxGet rest k

/-- Remove every binding of a key from an index map. -/
def idxErase : IndexMap → List Nat → IndexMap
  | [], _ => []
  | (k', p) :: rest, k => if k' = k then idxErase rest k else (k', p) :: idxErase rest k

/-- Map insertion that returns the displaced binding: the `Indexer::put`
contract of the trait in src/src/index/mod.rs (`Option<LogRecordPos>`),
which src/src/db.rs and src/src/batch.rs rely on
(`if let Some(old_pos) = self.index.put(...)`). -/
def idxPut (m : IndexMap) (k : List Nat) (pos : LogRecordPos) :
    Option LogRecordPos × IndexMap :=
  (idxGet m k, (k, pos) :: idxErase m k)

/-- Map removal that returns the displaced binding: the `Indexer::delete`
contract of the trait in src/src/index/mod.rs. -/
def idxDelete (m : IndexMap) (k : List Nat) : Option LogRecordPos × IndexMap :=
  (idxGet m k, idxErase m k)

/-- BTree backend `put` exactly as implemented in src/src/index/btree.rs:
`self.tree.write().insert(key, pos)` discards the displaced value and the
function returns the constant `true`. -/
def btreePut (m : IndexMap) (k : List Nat) (pos : LogRecordPos) : Bool × IndexMap :=
  (true, (k, pos) :: idxErase m k)

/-- BTree backend `delete` exactly as implemented in src/src/index/btree.rs:
returns only whether a binding was removed. -/
def btreeDelete (m : IndexMap) (k : List Nat) : Bool × IndexMap :=
  ((idxGet m k).isSome, idxErase m k)

/-- SkipList backend `put` exactly as implemented in
src/src/index/skiplist.rs: insert, then the constant `true`. -/
def skipListPut (m : IndexMap) (k : List Nat) (pos : LogRecordPos) : Bool × IndexMap :=
  (true, (k, pos) :: idxErase m k)

/-- SkipList backend `delete` exactly as implemented in
src/src/index/skiplist.rs: returns `remove_res.is_some()`. -/
def skipListDelete (m : IndexMap) (k : List Nat) : Bool × IndexMap :=
  ((idxGet m k).isSome, idxErase m k)

/-- A jammdb bucket as used by the B+-tree backend: key to stored bytes. -/
abbrev BPTreeBucket := List (List Nat × List Nat)

/-- Bucket lookup (`bucket.get_kv`). -/
def bucketGetKv : BPTreeBucket → List Nat → Option (List Nat)
  | [], _ => none
  | (k', v) :: rest, k => if k' = k then some v else bucketGetKv rest k

/-- Bucket erase (used by `bucket.put` replacement and `bucket.delete`). -/
def bucketErase : BPTreeBucket → List Nat → BPTreeBucket
  | [], _ => []
  | (k', v) :: rest, k => if k' = k then bucketErase rest k else (k', v) :: bucketErase rest k

/-- B+-tree backend `put` as implemented in src/src/index/bptree.rs: read
the previous stored bytes, decode them into the displaced position, then
store `pos.encode()`; the whole mutation is one committed transaction. -/
def bptreePut (m : BPTreeBucket) (k : List Nat) (pos : LogRecordPos) :
    Option LogRecordPos × BPTreeBucket :=
  (match bucketGetKv m k with
   | some bytes => decodeLogRecordPos bytes
   | none => none,
   (k, pos.encode) :: bucketErase m k)

/-- B+-tree backend `delete` as implemented in src/src/index/bptree.rs:
remove the binding and return the decoded displaced position. -/
def bptreeDelete (m : BPTreeBucket) (k : List Nat) :
    Option LogRecordPos × BPTreeBucket :=
  (match bucketGetKv m k with
   | some bytes => decodeLogRecordPos bytes
   | none => none,
   bucketErase m k)

/-! The engine state and its core operations (src/src/db.rs). -/

/-- Non-transactional sequence number, src/src/batch.rs
`NON_TRANSACTION_SEQ_NO`. -/
def nonTransactionSeqNo : Nat := 0

/-- On-disk key: varint of the sequence number followed by the raw key,
`log_record_key_with_seq` in src/src/batch.rs. -/
def logRecordKeyWithSeq (key : List Nat) (seqNo : Nat) : List Nat :=
  encodeLengthDelimiter seqNo ++ key

/-- Split an on-disk key into raw key and sequence number,
`parse_log_record_key` in src/src/batch.rs; `none` models the panic of the
`unwrap` on a prost decode error. -/
def parseLogRecordKey (key : List Nat) : Option (List Nat × Nat) :=
  match decodeLengthDelimiter key with
  | none => none
  | some (seqNo, rest) => some (rest, seqNo)

/-- Engine configuration, the fields of src/src/options.rs that the
modelled operations read. -/
structure Options where
  dataFileSize : Nat
  syncWrites : Bool
  bytesPerSync : Nat
deriving Repr, DecidableEq

/-- Engine state: the active data file (id, contents, write offset), the
older files map, the index, and the counters of src/src/db.rs `Engine`.
File contents are byte lists; durability calls (`sync`) do not change this
state and are modelled only through the `bytesWrite` counter reset. -/
structure EngineState where
  activeId : Nat
  activeData : List Nat
  activeWriteOff : Nat
  olderFiles : List (Nat × List Nat)
  index : IndexMap
  seqNo : Nat
  reclaimSize : Nat
  bytesWrite : Nat
deriving Repr, DecidableEq

/-- Lookup of an older data file by id (`older_files.get`). -/
def olderLookup : List (Nat × List Nat) → Nat → Option (List Nat)
  | [], _ => none
  | (fid, f) :: rest, target => if fid = target then some f else olderLookup rest target

/-- The file a locator refers to: the active file when the ids match,
otherwise the older-files map (the match in `Engine::get_value_by_position`,
src/src/db.rs lines 305-320). -/
def EngineState.fileOfId (s : EngineState) (fid : Nat) : Option (List Nat) :=
  if s.activeId = fid then some s.activeData else olderLookup s.olderFiles fid

/-- Append one encoded record to the active data file,
`Engine::append_log_record` (src/src/db.rs lines 332-387): roll the active
file into the older map and open a fresh one when the write offset plus the
record length would exceed `data_file_size`; append; update the
bytes-written tally (reset on an fsync decided by `sync_writes` /
`bytes_per_sync`); return the locator of the written record. -/
def EngineState.appendLogRecord (s : EngineState) (opts : Options) (r : LogRecord) :
    LogRecordPos × EngineState :=
  let enc := r.encode
  let recordLen := enc.length
  let s1 :=
    if opts.dataFileSize < s.activeWriteOff + recordLen then
      { s with
        olderFiles := (s.activeId, s.activeData) :: s.olderFiles,
        activeId := s.activeId + 1, activeData := [], activeWriteOff := 0 }
    else s
  let writeOff := s1.activeWriteOff
  let previous := s1.bytesWrite
  let needSync : Bool :=
    opts.syncWrites || (decide (0 < opts.bytesPerSync)
      && decide (opts.bytesPerSync ≤ previous + recordLen))
  let s2 := { s1 with
    activeData := s1.activeData ++ enc,
    activeWriteOff := s1.activeWriteOff + recordLen,
    bytesWrite := if needSync then 0 else previous + recordLen }
  (⟨s1.activeId, writeOff, recordLen⟩, s2)

/-- The record a put writes: key prefixed with sequence number 0, NORMAL
type (src/src/db.rs lines 231-236). -/
def putRecord (key value : List Nat) : LogRecord :=
  ⟨logRecordKeyWithSeq key nonTransactionSeqNo, value, .normal⟩

/-- `Engine::put` (src/src/db.rs lines 224-248): reject an empty key,
append the record, update the index and add any displaced position's size
to `reclaim_size`. -/
def EngineState.put (s : EngineState) (opts : Options) (key value : List Nat) :
    RRes EngineState :=
  if key = [] then .err .keyIsEmpty
  else
    let res := s.appendLogRecord opts (putRecord key value)
    let s1 := res.2
    let old := (idxPut s1.index key res.1).1
    let idx := (idxPut s1.index key res.1).2
    .ok { s1 with
      index := idx,
      reclaimSize := s1.reclaimSize + (match old with | some op => op.size | none => 0) }

/-- `Engine::delete` (src/src/db.rs lines 250-282): reject an empty key,
return OK silently when the key is absent from the index, otherwise append
a DELETE tombstone (its own size is reclaimable) and remove the key from
the index, adding the displaced position's size to `reclaim_size`. -/
def EngineState.delete (s : EngineState) (opts : Options) (key : List Nat) :
    RRes EngineState :=
  if key = [] then .err .keyIsEmpty
  else
    match idxGet s.index key with
    | none => .ok s
    | some _ =>
      let res := s.appendLogRecord opts ⟨logRecordKeyWithSeq key nonTransactionSeqNo, [], .delete⟩
      let s1 := { res.2 with reclaimSize := res.2.reclaimSize + res.1.size }
      let old := (idxDelete s1.index key).1
      let idx := (idxDelete s1.index key).2
      .ok { s1 with
        index := idx,
        reclaimSize := s1.reclaimSize + (match old with | some op => op.size | none => 0) }

/-- `Engine::get_value_by_position` (src/src/db.rs lines 303-329): read the
record at the locator from the active or an older file, fail with
`DataFileNotFound` when no file has the id, treat a DELETE record as
`KeyNotFound`, otherwise return the value. -/
def EngineState.getValueByPosition (s : EngineState) (pos : LogRecordPos) :
    RRes (List Nat) :=
  match s.fileOfId pos.fileId with
  | none => .err .dataFileNotFound
  | some f =>
    match readLogRecord f pos.offset with
    | .err e => .err e
    | .panics => .panics
    | .ok (r, _) => if r.recType = .delete then .err .keyNotFound else .ok r.value

/-- `Engine::get` (src/src/db.rs lines 284-300): reject an empty key, look
the key up in the index, fail with `KeyNotFound` when absent, else follow
the stored position. -/
def EngineState.get (s : EngineState) (key : List Nat) : RRes (List Nat) :=
  if key = [] then .err .keyIsEmpty
  else
    match idxGet s.index key with
    | none => .err .keyNotFound
    | some pos => s.getValueByPosition pos

/-- Well-formedness of an engine state: the active write offset equals the
active file length (append-only discipline) and every older file has an id
below the active id (ids are assigned monotonically). -/
def EngineWF (s : EngineState) : Prop :=
  s.activeWriteOff = s.activeData.length ∧ ∀ e ∈ s.olderFiles, e.1 < s.activeId

/-- All log bytes of a state: older files oldest-first, then the active
file. -/
def totalLog (s : EngineState) : List Nat :=
  ((s.olderFiles.reverse).map Prod.snd).flatten ++ s.activeData

/-! Small facts about the index map operations. -/

/-- Erasing one key does not change lookups of another. -/
theorem idxGet_erase_ne (m : IndexMap) {k k' : List Nat} (h : k' ≠ k) :
    idxGet (idxErase m k') k = idxGet m k := by
  induction m with
  | nil => rfl
  | cons e rest ih =>
    obtain ⟨k0, p⟩ := e
    by_cases h0 : k0 = k'
    · subst h0
      simp [idxErase, idxGet, h, ih]
    · simp only [idxErase, if_neg h0, idxGet, ih]

/-- Lookup after inserting the same key. -/
theorem idxGet_put_self (m : IndexMap) (k : List Nat) (pos : LogRecordPos) :
    idxGet (idxPut m k pos).2 k = some pos := by
  simp [idxPut, idxGet]

/-- Lookup after inserting a different key. -/
theorem idxGet_put_ne (m : IndexMap) {k k' : List Nat} (pos : LogRecordPos) (h : k' ≠ k) :
    idxGet (idxPut m k' pos).2 k = idxGet m k := by
  simp only [idxPut, idxGet, if_neg h]
  exact idxGet_erase_ne m h

/-- Lookup after deleting a different key. -/
theorem idxGet_delete_ne (m : IndexMap) {k k' : List Nat} (h : k' ≠ k) :
    idxGet (idxDelete m k').2 k = idxGet m k :=
  idxGet_erase_ne m h

/-- A successful older-file lookup comes from a list entry. -/
theorem olderLookup_mem {l : List (Nat × List Nat)} {fid : Nat} {f : List Nat}
    (h : olderLookup l fid = some f) : (fid, f) ∈ l := by
  induction l with
  | nil => exact absurd h (by simp [olderLookup])
  | cons e rest ih =>
    obtain ⟨fid0, f0⟩ := e
    by_cases h0 : fid0 = fid
    · subst h0
      unfold olderLookup at h
      rw [if_pos rfl, Option.some.injEq] at h
      subst h
      exact List.mem_cons_self _ _
    · unfold olderLookup at h
      rw [if_neg h0] at h
      exact List.mem_cons_of_mem _ (ih h)

/-! Effect of one append on the engine state. -/

/-- Appending preserves well-formedness. -/
theorem appendLogRecord_wf (s : EngineState) (opts : Options) (r : LogRecord)
    (hwf : EngineWF s) : EngineWF (s.appendLogRecord opts r).2 := by
  obtain ⟨hoff, hold⟩ := hwf
  unfold EngineState.appendLogRecord
  dsimp only
  split
  all_goals try dsimp only
  · refine ⟨by simp, ?_⟩
    dsimp only
    intro e he
    simp only [List.mem_cons] at he
    rcases he with he | he
    · subst he; omega
    · exact lt_trans (hold e he) (by omega)
  · exact ⟨by simp [hoff], fun e he => hold e he⟩

/-- Appending extends the concatenated log by exactly the record's
encoding. -/
theorem appendLogRecord_totalLog (s : EngineState) (opts : Options) (r : LogRecord) :
    totalLog (s.appendLogRecord opts r).2 = totalLog s ++ r.encode := by
  unfold EngineState.appendLogRecord
  dsimp only
  split
  · simp [totalLog]
  · simp [totalLog]

/-- The locator returned by an append points at the end of the new active
file (for a well-formed state). -/
theorem appendLogRecord_pos (s : EngineState) (opts : Options) (r : LogRecord)
    (hwf : EngineWF s) :
    (s.appendLogRecord opts r).1.fileId = (s.appendLogRecord opts r).2.activeId ∧
    (s.appendLogRecord opts r).1.size = r.encode.length ∧
    ∃ pre, (s.appendLogRecord opts r).2.activeData = pre ++ r.encode ∧
      (s.appendLogRecord opts r).1.offset = pre.length := by
  obtain ⟨hoff, _⟩ := hwf
  unfold EngineState.appendLogRecord
  dsimp only
  split
  all_goals try dsimp only
  · exact ⟨rfl, rfl, [], by simp, rfl⟩
  · exact ⟨rfl, rfl, s.activeData, rfl, hoff⟩

/-- The index is untouched by an append. -/
theorem appendLogRecord_index (s : EngineState) (opts : Options) (r : LogRecord) :
    (s.appendLogRecord opts r).2.index = s.index := by
  unfold EngineState.appendLogRecord
  dsimp only
  split <;> rfl

/-- Any file visible before an append is still visible afterwards, extended
by at most a suffix. -/
theorem appendLogRecord_fileOfId (s : EngineState) (opts : Options) (r : LogRecord)
    {fid : Nat} {f : List Nat} (hwf : EngineWF s) (hf : s.fileOfId fid = some f) :
    ∃ suf, (s.appendLogRecord opts r).2.fileOfId fid = some (f ++ suf) := by
  obtain ⟨_, hold⟩ := hwf
  unfold EngineState.fileOfId at hf
  unfold EngineState.appendLogRecord
  dsimp only
  split
  all_goals try dsimp only
  · -- roll: the old active file moves into the older map
    by_cases hact : s.activeId = fid
    · subst hact
      refine ⟨[], ?_⟩
      rw [if_pos rfl, Option.some.injEq] at hf
      simp only [EngineState.fileOfId, olderLookup]
      rw [if_neg (by omega)]
      simp [hf]
    · rw [if_neg hact] at hf
      have hmem := olderLookup_mem hf
      have hlt : fid < s.activeId := hold _ hmem
      refine ⟨[], ?_⟩
      simp only [EngineState.fileOfId, olderLookup]
      rw [if_neg (by omega), if_neg (by omega : ¬ s.activeId = fid), List.append_nil]
      exact hf
  · -- no roll
    by_cases hact : s.activeId = fid
    · subst hact
      rw [if_pos rfl, Option.some.injEq] at hf
      refine ⟨r.encode, ?_⟩
      simp only [EngineState.fileOfId]
      simp [hf]
    · rw [if_neg hact] at hf
      refine ⟨[], ?_⟩
      simp only [EngineState.fileOfId]
      rw [if_neg hact, List.append_nil]
      exact hf

/-! Read-your-writes: a key whose freshly written record is reachable
through the index keeps reading back its value. -/

/-- The index entry of `k` points at an intact encoded put-record for
`(k, v)` inside the file it refers to. -/
def GoodPos (s : EngineState) (k v : List Nat) : Prop :=
  ∃ pos pre suf f, idxGet s.index k = some pos ∧ s.fileOfId pos.fileId = some f ∧
    f = pre ++ (putRecord k v).encode ++ suf ∧ pos.offset = pre.length

/-- The on-disk key of a put is the raw key prefixed by the zero byte. -/
theorem putRecord_key (k v : List Nat) : (putRecord k v).key = 0 :: k := by
  simp [putRecord, logRecordKeyWithSeq, nonTransactionSeqNo,
    encodeLengthDelimiter_of_lt (by norm_num : (0 : Nat) < 128)]

/-- A good position makes `get` return the value (for keys and values whose
record fits the reader's 3-byte framing prefix). -/
theorem get_of_goodPos {s : EngineState} {k v : List Nat} (hk : k ≠ [])
    (hklen : k.length < 127) (hvlen : v.length < 128) (hg : GoodPos s k v) :
    s.get k = .ok v := by
  obtain ⟨pos, pre, suf, f, hidx, hfile, hf, hoff⟩ := hg
  have hkey : (putRecord k v).key = 0 :: k := putRecord_key k v
  have hread := readLogRecord_encode (putRecord k v) pre suf
    (by rw [hkey]; simp; omega) (by rw [hkey]; simp)
    (by simpa [putRecord] using hvlen) (by simp [putRecord])
  unfold EngineState.get
  rw [if_neg hk]
  simp only [hidx]
  unfold EngineState.getValueByPosition
  simp only [hfile]
  rw [hoff, hf]
  simp only [hread]
  simp [putRecord]

/-- A successful put leaves a well-formed state in which the key's index
entry points at the record just written. -/
theorem put_goodPos {s s' : EngineState} {opts : Options} {k v : List Nat}
    (hwf : EngineWF s) (hput : s.put opts k v = .ok s') :
    EngineWF s' ∧ GoodPos s' k v := by
  by_cases hk : k = []
  · unfold EngineState.put at hput
    rw [if_pos hk] at hput
    simp at hput
  · unfold EngineState.put at hput
    rw [if_neg hk] at hput
    dsimp only at hput
    rw [RRes.ok.injEq] at hput
    subst hput
    have hwf1 := appendLogRecord_wf s opts (putRecord k v) hwf
    obtain ⟨hfid, hsize, pre, hdata, hoffs⟩ := appendLogRecord_pos s opts (putRecord k v) hwf
    constructor
    · exact hwf1
    · refine ⟨(s.appendLogRecord opts (putRecord k v)).1, pre, [],
        (s.appendLogRecord opts (putRecord k v)).2.activeData, ?_, ?_, ?_, hoffs⟩
      · exact idxGet_put_self _ _ _
      · show EngineState.fileOfId _ _ = _
        unfold EngineState.fileOfId
        rw [hfid, if_pos rfl]
      · rw [hdata, List.append_nil]

/-- Engine operations other clients may run after the put. -/
inductive EngineOp where
  | putOp (key value : List Nat)
  | delOp (key : List Nat)
deriving Repr, DecidableEq

/-- The operation does not touch key `k`. -/
def opAvoids (k : List Nat) : EngineOp → Prop
  | .putOp k' _ => k' ≠ k
  | .delOp k' => k' ≠ k

/-- Run one operation, keeping the state unchanged when it returns an
error (the only error of put/delete is the empty-key rejection). -/
def applyOp (opts : Options) (s : EngineState) : EngineOp → EngineState
  | .putOp k' v' => (s.put opts k' v').okOr s
  | .delOp k' => (s.delete opts k').okOr s

/-- Run a list of operations left to right. -/
def runOps (opts : Options) (ops : List EngineOp) (s : EngineState) : EngineState :=
  ops.foldl (applyOp opts) s

/-- One operation on a different key preserves well-formedness and the
visibility of `k`'s record. -/
theorem applyOp_preserves {opts : Options} {s : EngineState} {k v : List Nat}
    (op : EngineOp) (havoid : opAvoids k op) (hwf : EngineWF s) (hg : GoodPos s k v) :
    EngineWF (applyOp opts s op) ∧ GoodPos (applyOp opts s op) k v := by
  obtain ⟨pos, pre, suf, f, hidx, hfile, hf, hoff⟩ := hg
  cases op with
  | putOp k' v' =>
    have hne : k' ≠ k := havoid
    by_cases hk' : k' = []
    · simp only [applyOp]
      unfold EngineState.put
      rw [if_pos hk']
      dsimp only [RRes.okOr]
      exact ⟨hwf, pos, pre, suf, f, hidx, hfile, hf, hoff⟩
    · simp only [applyOp]
      unfold EngineState.put
      rw [if_neg hk']
      dsimp only [RRes.okOr]
      have hwf1 := appendLogRecord_wf s opts (putRecord k' v') hwf
      obtain ⟨suf', hfile'⟩ := appendLogRecord_fileOfId s opts (putRecord k' v') hwf hfile
      refine ⟨hwf1, pos, pre, suf ++ suf', f ++ suf', ?_, ?_, ?_, hoff⟩
      · rw [idxGet_put_ne _ _ hne, appendLogRecord_index]
        exact hidx
      · exact hfile'
      · rw [hf]
        simp
  | delOp k' =>
    have hne : k' ≠ k := havoid
    by_cases hk' : k' = []
    · simp only [applyOp]
      unfold EngineState.delete
      rw [if_pos hk']
      dsimp only [RRes.okOr]
      exact ⟨hwf, pos, pre, suf, f, hidx, hfile, hf, hoff⟩
    · simp only [applyOp]
      unfold EngineState.delete
      rw [if_neg hk']
      cases hlook : idxGet s.index k' with
      | none =>
        simp only [hlook]
        exact ⟨hwf, pos, pre, suf, f, hidx, hfile, hf, hoff⟩
      | some p0 =>
        simp only [hlook]
        dsimp only [RRes.okOr]
        have hwf1 := appendLogRecord_wf s opts
          ⟨logRecordKeyWithSeq k' nonTransactionSeqNo, [], .delete⟩ hwf
        obtain ⟨suf', hfile'⟩ := appendLogRecord_fileOfId s opts
          ⟨logRecordKeyWithSeq k' nonTransactionSeqNo, [], .delete⟩ hwf hfile
        refine ⟨hwf1, pos, pre, suf ++ suf', f ++ suf', ?_, ?_, ?_, hoff⟩
        · show idxGet (idxDelete _ k').2 k = some pos
          rw [idxGet_delete_ne _ hne]
          show idxGet (s.appendLogRecord opts _).2.index k = some pos
          rw [appendLogRecord_index]
          exact hidx
        · exact hfile'
        · rw [hf]
          simp

/-- Running any list of operations that avoid `k` preserves well-formedness
and the visibility of `k`'s record. -/
theorem runOps_preserves {opts : Options} (ops : List EngineOp) :
    ∀ {s : EngineState} {k v : List Nat}, (∀ op ∈ ops, opAvoids k op) →
      EngineWF s → GoodPos s k v →
      EngineWF (runOps opts ops s) ∧ GoodPos (runOps opts ops s) k v := by
  induction ops with
  | nil => exact fun _ hwf hg => ⟨hwf, hg⟩
  | cons op ops ih =>
    intro s k v havoid hwf hg
    obtain ⟨hwf', hg'⟩ := applyOp_preserves op (havoid op (by simp)) hwf hg
    exact ih (fun o ho => havoid o (by simp [ho])) hwf' hg'

/-! The on-open data-file scan, `Engine::load_index_from_data_files`
(src/src/db.rs lines 391-497). The scan is modelled over the per-file
streams of decoded records (each with its offset and encoded size, exactly
what the `read_log_record` loop yields before `ReadDataFileEof`). -/

/-- A buffered transactional record, `TransactionRecord`. Modelled from the
spec: the type is missing from the old src/src/data/log_record.rs but
constructed in src/src/db.rs with a record and its position. -/
structure TransactionRecord where
  record : LogRecord
  pos : LogRecordPos
deriving Repr, DecidableEq

/-- The pending-transactions map, seq_no to buffered records. -/
abbrev TxnRecords := List (Nat × List TransactionRecord)

/-- Lookup a sequence number's buffer (`transaction_records.get`). -/
def txnLookup : TxnRecords → Nat → Option (List TransactionRecord)
  | [], _ => none
  | (q0, rs) :: rest, q => if q0 = q then some rs else txnLookup rest q

/-- Append a record to a sequence number's buffer, creating it when absent
(`transaction_records.entry(seq_no).or_insert(Vec::new()).push(..)`). -/
def txnInsert : TxnRecords → Nat → TransactionRecord → TxnRecords
  | [], q, tr => [(q, [tr])]
  | (q0, rs) :: rest, q, tr =>
    if q0 = q then (q0, rs ++ [tr]) :: rest else (q0, rs) :: txnInsert rest q tr

/-- Drop a sequence number's buffer (`transaction_records.remove`). -/
def txnRemove : TxnRecords → Nat → TxnRecords
  | [], _ => []
  | (q0, rs) :: rest, q => if q0 = q then txnRemove rest q else (q0, rs) :: txnRemove rest q

/-- State threaded through the scan: the index under construction, the
reclaim counter, the pending-transactions map and the running sequence-
number high-water mark. -/
structure ScanState where
  index : IndexMap
  reclaimSize : Nat
  txnRecords : TxnRecords
  currentSeqNo : Nat
deriving Repr, DecidableEq

/-- `Engine::upadte_index` (sic, src/src/db.rs lines 533-548): a NORMAL
record installs its position (displaced size reclaimed); a DELETE record
removes the key (its own size and any displaced size reclaimed). -/
def upadteIndex (idx : IndexMap) (reclaim : Nat) (key : List Nat) (rt : LogRecordType)
    (pos : LogRecordPos) : IndexMap × Nat :=
  let step1 :=
    if rt = .normal then
      ((idxPut idx key pos).2,
        reclaim + (match (idxPut idx key pos).1 with | some op => op.size | none => 0))
    else (idx, reclaim)
  if rt = .delete then
    ((idxDelete step1.1 key).2,
      step1.2 + (pos.size
        + (match (idxDelete step1.1 key).1 with | some op => op.size | none => 0)))
  else step1

/-- Fold a buffered transaction into the index (the loop over
`transaction_records.get(&seq_no)` in src/src/db.rs lines 460-467). -/
def applyTxnRecords (records : List TransactionRecord) (idx : IndexMap) (reclaim : Nat) :
    IndexMap × Nat :=
  records.foldl
    (fun acc tr => upadteIndex acc.1 acc.2 tr.record.key tr.record.recType tr.pos)
    (idx, reclaim)

/-- One iteration of the scan loop body (src/src/db.rs lines 427-487) on a
decoded record `item = (record, offset, size)` from file `fid`: parse the
key into raw key and seq_no (a parse failure is an unwrap panic); a
`seq_no = 0` record is applied immediately; a TXN_FINISHED record applies
and drops its seq_no's buffer (panicking when no buffer exists, as the
source's `.unwrap()` does); any other record is buffered under its seq_no;
finally the seq_no high-water mark is advanced. -/
def scanStep (st : ScanState) (fid : Nat) (item : LogRecord × Nat × Nat) : RRes ScanState :=
  let r := item.1
  let pos : LogRecordPos := ⟨fid, item.2.1, item.2.2⟩
  match parseLogRecordKey r.key with
  | none => .panics
  | some (relKey, seqNo) =>
    let st1 : Option ScanState :=
      if seqNo = nonTransactionSeqNo then
        some { st with
          index := (upadteIndex st.index st.reclaimSize relKey r.recType pos).1,
          reclaimSize := (upadteIndex st.index st.reclaimSize relKey r.recType pos).2 }
      else if r.recType = .txnFinished then
        match txnLookup st.txnRecords seqNo with
        | none => none
        | some records =>
          some { st with
            index := (applyTxnRecords records st.index st.reclaimSize).1,
            reclaimSize := (applyTxnRecords records st.index st.reclaimSize).2,
            txnRecords := txnRemove st.txnRecords seqNo }
      else
        some { st with
          txnRecords := txnInsert st.txnRecords seqNo ⟨⟨relKey, r.value, r.recType⟩, pos⟩ }
    match st1 with
    | none => .panics
    | some st2 =>
      .ok { st2 with
        currentSeqNo := if st2.currentSeqNo < seqNo then seqNo else st2.currentSeqNo }

/-- Scan every decoded record of one data file in order. -/
def scanItems (fid : Nat) : List (LogRecord × Nat × Nat) → ScanState → RRes ScanState
  | [], st => .ok st
  | item :: rest, st =>
    match scanStep st fid item with
    | .ok st' => scanItems fid rest st'
    | .err e => .err e
    | .panics => .panics

/-- The skip test of the scan loop (src/src/db.rs line 421):
`has_merge && *file_id < non_merge_fid`. -/
def fileSkipped (hasMerge : Bool) (nonMergeFid fid : Nat) : Bool :=
  hasMerge && decide (fid < nonMergeFid)

/-- The whole multi-file scan of `load_index_from_data_files`
(src/src/db.rs lines 418-494): files whose id passes the skip test are
ignored (their index content came from the hint file); all other files are
scanned in order. `hasMerge` and `nonMergeFid` are the results of reading
the merge-completion marker (lines 399-410): `hasMerge` is false and
`nonMergeFid` is 0 when the `merge-fin` file does not exist. -/
def loadIndexFromDataFiles (hasMerge : Bool) (nonMergeFid : Nat) :
    List (Nat × List (LogRecord × Nat × Nat)) → ScanState → RRes ScanState
  | [], st => .ok st
  | (fid, items) :: rest, st =>
    if fileSkipped hasMerge nonMergeFid fid then
      loadIndexFromDataFiles hasMerge nonMergeFid rest st
    else
      match scanItems fid items st with
      | .ok st' => loadIndexFromDataFiles hasMerge nonMergeFid rest st'
      | .err e => .err e
      | .panics => .panics

/-! Facts about the pending-transactions map. -/

/-- Inserting into a buffer appends to exactly that buffer. -/
theorem txnLookup_insert_self (l : TxnRecords) (q : Nat) (tr : TransactionRecord) :
    txnLookup (txnInsert l q tr) q = some ((txnLookup l q).getD [] ++ [tr]) := by
  induction l with
  | nil => simp [txnInsert, txnLookup]
  | cons e rest ih =>
    obtain ⟨q0, rs⟩ := e
    by_cases h0 : q0 = q
    · subst h0
      simp [txnInsert, txnLookup]
    · simp [txnInsert, txnLookup, h0, ih]

/-- Inserting into one buffer leaves the others unchanged. -/
theorem txnLookup_insert_ne (l : TxnRecords) {q q' : Nat} (tr : TransactionRecord)
    (h : q' ≠ q) : txnLookup (txnInsert l q tr) q' = txnLookup l q' := by
  induction l with
  | nil => simp [txnInsert, txnLookup, Ne.symm h]
  | cons e rest ih =>
    obtain ⟨q0, rs⟩ := e
    by_cases h0 : q0 = q
    · subst h0
      simp [txnInsert, txnLookup, Ne.symm h]
    · simp only [txnInsert, if_neg h0, txnLookup]
      by_cases h1 : q0 = q'
      · simp [h1]
      · simp [h1, ih]

/-- A removed buffer is gone. -/
theorem txnLookup_remove_self (l : TxnRecords) (q : Nat) :
    txnLookup (txnRemove l q) q = none := by
  induction l with
  | nil => rfl
  | cons e rest ih =>
    obtain ⟨q0, rs⟩ := e
    by_cases h0 : q0 = q
    · simp [txnRemove, h0, ih]
    · simp [txnRemove, txnLookup, h0, ih]

/-- Removing one buffer leaves the others unchanged. -/
theorem txnLookup_remove_ne (l : TxnRecords) {q q' : Nat} (h : q' ≠ q) :
    txnLookup (txnRemove l q) q' = txnLookup l q' := by
  induction l with
  | nil => rfl
  | cons e rest ih =>
    obtain ⟨q0, rs⟩ := e
    by_cases h0 : q0 = q
    · subst h0
      simp [txnRemove, txnLookup, Ne.symm h, ih]
    · simp only [txnRemove, if_neg h0, txnLookup]
      by_cases h1 : q0 = q'
      · simp [h1]
      · simp [h1, ih]

/-- The sequence number a scanned record carries, when its key parses. -/
def itemSeqNo (item : LogRecord × Nat × Nat) : Option Nat :=
  (parseLogRecordKey item.1.key).map (fun pr => pr.2)

/-- The record belongs to transaction `q` (and is not its finalizer). -/
def itemPendingOf (q : Nat) (item : LogRecord × Nat × Nat) : Bool :=
  decide (itemSeqNo item = some q) && !(decide (item.1.recType = .txnFinished))

/-- Two scan states that agree everywhere except possibly on the buffer of
transaction `q`. -/
def ScanAgree (q : Nat) (st st' : ScanState) : Prop :=
  st.index = st'.index ∧ st.reclaimSize = st'.reclaimSize ∧
    ∀ q', q' ≠ q → txnLookup st.txnRecords q' = txnLookup st'.txnRecords q'

/-- Relation between the results of two scans that may differ only in the
buffer of transaction `q`. -/
def ScanAgreeR (q : Nat) : RRes ScanState → RRes ScanState → Prop
  | .ok t, .ok t' => ScanAgree q t t'
  | .panics, .panics => True
  | _, _ => False

/-- A record carrying a nonzero seq_no that is not a finalizer is buffered:
the index and reclaim counter are untouched and the record lands at the end
of its transaction's buffer. -/
theorem scanStep_buffers {st : ScanState} {fid : Nat} {r : LogRecord} {off sz : Nat}
    {relKey : List Nat} {q : Nat}
    (hparse : parseLogRecordKey r.key = some (relKey, q)) (hq : q ≠ 0)
    (ht : r.recType ≠ .txnFinished) :
    ∃ st', scanStep st fid (r, off, sz) = .ok st' ∧
      st'.index = st.index ∧ st'.reclaimSize = st.reclaimSize ∧
      txnLookup st'.txnRecords q
        = some ((txnLookup st.txnRecords q).getD []
            ++ [⟨⟨relKey, r.value, r.recType⟩, ⟨fid, off, sz⟩⟩]) ∧
      ∀ q'', q'' ≠ q → txnLookup st'.txnRecords q'' = txnLookup st.txnRecords q'' := by
  unfold scanStep
  dsimp only
  simp only [hparse]
  rw [if_neg (by simpa [nonTransactionSeqNo] using hq), if_neg ht]
  exact ⟨_, rfl, rfl, rfl, txnLookup_insert_self _ _ _,
    fun q'' hne => txnLookup_insert_ne _ _ hne⟩

/-- A finalizer whose transaction has a buffer applies the whole buffer to
the index and drops the buffer. -/
theorem scanStep_finalizes {st : ScanState} {fid : Nat} {r : LogRecord} {off sz : Nat}
    {relKey : List Nat} {q : Nat} {records : List TransactionRecord}
    (hparse : parseLogRecordKey r.key = some (relKey, q)) (hq : q ≠ 0)
    (ht : r.recType = .txnFinished)
    (hbuf : txnLookup st.txnRecords q = some records) :
    ∃ st', scanStep st fid (r, off, sz) = .ok st' ∧
      st'.index = (applyTxnRecords records st.index st.reclaimSize).1 ∧
      st'.reclaimSize = (applyTxnRecords records st.index st.reclaimSize).2 ∧
      txnLookup st'.txnRecords q = none := by
  unfold scanStep
  dsimp only
  simp only [hparse]
  rw [if_neg (by simpa [nonTransactionSeqNo] using hq), if_pos ht]
  simp only [hbuf]
  exact ⟨_, rfl, rfl, rfl, txnLookup_remove_self _ _⟩

/-- Unfolding equation of the per-file scan on a cons. -/
theorem scanItems_cons (fid : Nat) (item : LogRecord × Nat × Nat)
    (rest : List (LogRecord × Nat × Nat)) (st : ScanState) :
    scanItems fid (item :: rest) st
      = match scanStep st fid item with
        | .ok st' => scanItems fid rest st'
        | .err e => .err e
        | .panics => .panics := rfl

/-- One scan step on a record that is neither a pending record of
transaction `q` nor its finalizer preserves agreement-except-at-`q`. -/
theorem scanStep_agree {q : Nat} {st st' : ScanState} (hag : ScanAgree q st st')
    (fid : Nat) (item : LogRecord × Nat × Nat)
    (hnotfin : ¬(itemSeqNo item = some q ∧ item.1.recType = .txnFinished))
    (hnotpend : itemPendingOf q item = false) :
    ScanAgreeR q (scanStep st fid item) (scanStep st' fid item) := by
  obtain ⟨hidx, hrec, htxn⟩ := hag
  obtain ⟨r, off, sz⟩ := item
  unfold scanStep
  dsimp only
  cases hparse : parseLogRecordKey r.key with
  | none => simp [ScanAgreeR]
  | some pr =>
    obtain ⟨relKey, q'⟩ := pr
    simp only [hparse]
    have hseq : itemSeqNo (r, off, sz) = some q' := by
      simp [itemSeqNo, hparse]
    by_cases hq0 : q' = nonTransactionSeqNo
    · rw [if_pos hq0, if_pos hq0, hidx, hrec]
      dsimp only
      show ScanAgree q _ _
      exact ⟨rfl, rfl, fun q'' hne => htxn q'' hne⟩
    · rw [if_neg hq0, if_neg hq0]
      by_cases hfin : r.recType = .txnFinished
      · have hq'ne : q' ≠ q := by
          intro he
          exact hnotfin ⟨by rw [hseq, he], hfin⟩
        have hlk := htxn q' hq'ne
        rw [if_pos hfin, if_pos hfin]
        cases hbuf : txnLookup st.txnRecords q' with
        | none =>
          rw [hbuf] at hlk
          rw [← hlk]
          simp [ScanAgreeR]
        | some records =>
          rw [hbuf] at hlk
          rw [← hlk, hidx, hrec]
          dsimp only
          show ScanAgree q _ _
          refine ⟨rfl, rfl, ?_⟩
          intro q'' hne
          dsimp only
          by_cases hq'' : q'' = q'
          · subst hq''
            rw [txnLookup_remove_self, txnLookup_remove_self]
          · rw [txnLookup_remove_ne _ hq'', txnLookup_remove_ne _ hq'']
            exact htxn q'' hne
      · have hq'ne : q' ≠ q := by
          intro he
          subst he
          simp [itemPendingOf, hseq, hfin] at hnotpend
        rw [if_neg hfin, if_neg hfin]
        dsimp only
        show ScanAgree q _ _
        refine ⟨hidx, hrec, ?_⟩
        intro q'' hne
        dsimp only
        by_cases hq'' : q'' = q'
        · subst hq''
          rw [txnLookup_insert_self, txnLookup_insert_self, htxn q'' hq'ne]
        · rw [txnLookup_insert_ne _ _ hq'', txnLookup_insert_ne _ _ hq'']
          exact htxn q'' hne

/-- Scanning a stream that contains no finalizer for transaction `q` gives
the same index and reclaim counter as scanning the stream with all of
transaction `q`'s records removed: unfinalized records never reach the
index. -/
theorem scanItems_discard {q : Nat} (hq : q ≠ 0) (fid : Nat)
    (items : List (LogRecord × Nat × Nat))
    (hnofin : ∀ item ∈ items, ¬(itemSeqNo item = some q ∧ item.1.recType = .txnFinished)) :
    ∀ {st st' : ScanState}, ScanAgree q st st' →
      ScanAgreeR q (scanItems fid items st)
        (scanItems fid (items.filter (fun it => !(itemPendingOf q it))) st') := by
  induction items with
  | nil => intro st st' hag; exact hag
  | cons item rest ih =>
    intro st st' hag
    by_cases hpend : itemPendingOf q item = true
    · have hdrop : (item :: rest).filter (fun it => !(itemPendingOf q it))
          = rest.filter (fun it => !(itemPendingOf q it)) := by
        simp [List.filter, hpend]
      rw [hdrop]
      have hseqfin : itemSeqNo item = some q ∧ item.1.recType ≠ .txnFinished := by
        unfold itemPendingOf at hpend
        rw [Bool.and_eq_true] at hpend
        exact ⟨of_decide_eq_true hpend.1, by
          intro hc
          simp [hc] at hpend⟩
      obtain ⟨hs, hnf⟩ := hseqfin
      obtain ⟨r, off, sz⟩ := item
      obtain ⟨relKey, hparse⟩ : ∃ rk, parseLogRecordKey r.key = some (rk, q) := by
        unfold itemSeqNo at hs
        cases hp : parseLogRecordKey r.key with
        | none => rw [hp] at hs; simp at hs
        | some pr =>
          rw [hp] at hs
          obtain ⟨rk, q0⟩ := pr
          simp at hs
          exact ⟨rk, by rw [← hs]⟩
      obtain ⟨st2, hstep, hidx2, hrec2, _, hother⟩ := @scanStep_buffers st fid r off sz relKey q hparse hq hnf
      rw [scanItems_cons, hstep]
      show ScanAgreeR q (scanItems fid rest st2) _
      refine ih (fun it hit => hnofin it (by simp [hit])) ?_
      obtain ⟨hidx, hrec, htxn⟩ := hag
      refine ⟨by rw [hidx2, hidx], by rw [hrec2, hrec], fun q'' hne => ?_⟩
      rw [hother q'' hne]
      exact htxn q'' hne
    · have hpf : itemPendingOf q item = false := by
        cases h : itemPendingOf q item
        · rfl
        · exact absurd h hpend
      have hkeep : (item :: rest).filter (fun it => !(itemPendingOf q it))
          = item :: rest.filter (fun it => !(itemPendingOf q it)) := by
        simp [List.filter, hpf]
      rw [hkeep]
      have hstep := scanStep_agree ⟨hag.1, hag.2.1, hag.2.2⟩ fid item
        (hnofin item (by simp)) hpf
      rw [scanItems_cons, scanItems_cons]
      cases h1 : scanStep st fid item with
      | ok t1 =>
        cases h2 : scanStep st' fid item with
        | ok t2 =>
          rw [h1, h2] at hstep
          exact ih (fun it hit => hnofin it (by simp [hit])) hstep
        | err e => rw [h1, h2] at hstep; exact absurd hstep (by simp [ScanAgreeR])
        | panics => rw [h1, h2] at hstep; exact absurd hstep (by simp [ScanAgreeR])
      | err e =>
        cases h2 : scanStep st' fid item with
        | ok t2 => rw [h1, h2] at hstep; exact absurd hstep (by simp [ScanAgreeR])
        | err e2 => rw [h1, h2] at hstep; exact absurd hstep (by simp [ScanAgreeR])
        | panics => rw [h1, h2] at hstep; exact absurd hstep (by simp [ScanAgreeR])
      | panics =>
        cases h2 : scanStep st' fid item with
        | ok t2 => rw [h1, h2] at hstep; exact absurd hstep (by simp [ScanAgreeR])
        | err e2 => rw [h1, h2] at hstep; exact absurd hstep (by simp [ScanAgreeR])
        | panics => simp [ScanAgreeR]

/-! ## Merge (`src/src/merge.rs`) -/

/-- One iteration of the merge rewrite loop (`Engine::merge`,
src/src/merge.rs lines 88-101): decode the record's raw key (a prost decode
failure panics through the `unwrap` inside `parse_log_record_key`), look it
up in the live index; when the stored position names exactly this file id
and this offset the record is live: rewrite it into the inner merge engine
with the sequence number stripped to 0 and append a hint entry mapping the
raw key to the rewritten record's position; otherwise leave the
accumulator unchanged.  `item` is `(record, offset, size)` as produced by
the file scan. -/
def mergeStep (index : IndexMap) (opts : Options) (fid : Nat)
    (acc : EngineState × List (List Nat × LogRecordPos))
    (item : LogRecord × Nat × Nat) :
    RRes (EngineState × List (List Nat × LogRecordPos)) :=
  match parseLogRecordKey item.1.key with
  | none => .panics
  | some (realKey, _) =>
    match idxGet index realKey with
    | some indexPos =>
      if indexPos.fileId = fid ∧ indexPos.offset = item.2.1 then
        let res := acc.1.appendLogRecord opts
          { item.1 with key := logRecordKeyWithSeq realKey nonTransactionSeqNo }
        .ok (res.2, acc.2 ++ [(realKey, res.1)])
      else .ok acc
    | none => .ok acc

/-- The merge rewrite loop over one data file's decoded records in offset
order (the inner `loop` of `Engine::merge`, src/src/merge.rs lines 76-101),
threading the inner merge engine and the hint entries. -/
def mergeFile (index : IndexMap) (opts : Options) (fid : Nat) :
    List (LogRecord × Nat × Nat) → EngineState × List (List Nat × LogRecordPos) →
    RRes (EngineState × List (List Nat × LogRecordPos))
  | [], acc => .ok acc
  | item :: rest, acc =>
    match mergeStep index opts fid acc item with
    | .ok acc' => mergeFile index opts fid rest acc'
    | .err e => .err e
    | .panics => .panics

/-- The liveness test of the claim, written after the spec's words: a
scanned record is live exactly when the live index maps its decoded raw key
to a position whose file id and offset both equal the record's file and
offset. -/
def itemLive (index : IndexMap) (fid : Nat) (item : LogRecord × Nat × Nat) : Bool :=
  match parseLogRecordKey item.1.key with
  | none => false
  | some (realKey, _) =>
    match idxGet index realKey with
    | some p => decide (p.fileId = fid) && decide (p.offset = item.2.1)
    | none => false

/-- The raw key of a scanned item (default irrelevant: used on items whose
key parses). -/
def itemRealKey (item : LogRecord × Nat × Nat) : List Nat :=
  ((parseLogRecordKey item.1.key).getD ([], 0)).1

/-- The raw keys that the spec says receive hint entries: those of the live
records, in scan order. -/
def liveHintKeys (index : IndexMap) (fid : Nat)
    (items : List (LogRecord × Nat × Nat)) : List (List Nat) :=
  (items.filter (itemLive index fid)).map itemRealKey

/-- The records the spec says are rewritten into the inner engine: the live
records with the sequence number stripped to 0, in scan order. -/
def liveRewrites (index : IndexMap) (fid : Nat)
    (items : List (LogRecord × Nat × Nat)) : List LogRecord :=
  (items.filter (itemLive index fid)).map fun item =>
    { item.1 with key := logRecordKeyWithSeq (itemRealKey item) nonTransactionSeqNo }

/-- Characterization of one merge file pass: when every scanned key
parses, the pass succeeds, its hint entries extend the accumulator by
exactly the raw keys of the live records, and the inner engine's log grows
by exactly the encodings of the live records with sequence numbers
stripped. -/
theorem mergeFile_ok (index : IndexMap) (opts : Options) (fid : Nat)
    (items : List (LogRecord × Nat × Nat))
    (hparse : ∀ item ∈ items, (parseLogRecordKey item.1.key).isSome = true) :
    ∀ acc : EngineState × List (List Nat × LogRecordPos),
      ∃ out, mergeFile index opts fid items acc = .ok out ∧
        out.2.map Prod.fst = acc.2.map Prod.fst ++ liveHintKeys index fid items ∧
        totalLog out.1 = totalLog acc.1 ++
          ((liveRewrites index fid items).map LogRecord.encode).flatten := by
  induction items with
  | nil =>
    intro acc
    exact ⟨acc, rfl, by simp [liveHintKeys], by simp [liveRewrites]⟩
  | cons item rest ih =>
    intro acc
    have hsome := hparse item (by simp)
    obtain ⟨pr, hpr⟩ : ∃ pr, parseLogRecordKey item.1.key = some pr := by
      cases h : parseLogRecordKey item.1.key with
      | none => rw [h] at hsome; simp at hsome
      | some pr => exact ⟨pr, rfl⟩
    obtain ⟨rk, sn⟩ := pr
    have hrk : itemRealKey item = rk := by
      unfold itemRealKey
      rw [hpr]
      rfl
    have hrest : ∀ it ∈ rest, (parseLogRecordKey it.1.key).isSome = true :=
      fun it hit => hparse it (List.mem_cons_of_mem _ hit)
    cases hidx : idxGet index rk with
    | none =>
      have hstep : mergeStep index opts fid acc item = .ok acc := by
        unfold mergeStep
        simp only [hpr, hidx]
      have hdead : itemLive index fid item = false := by
        unfold itemLive
        simp only [hpr, hidx]
      obtain ⟨out, hout, hkeys, hlog⟩ := ih hrest acc
      refine ⟨out, ?_, ?_, ?_⟩
      · unfold mergeFile
        rw [hstep]
        exact hout
      · rw [hkeys]
        unfold liveHintKeys
        rw [List.filter_cons_of_neg (by simp [hdead])]
      · rw [hlog]
        unfold liveRewrites
        rw [List.filter_cons_of_neg (by simp [hdead])]
    | some p =>
      by_cases hmatch : p.fileId = fid ∧ p.offset = item.2.1
      · have hlive : itemLive index fid item = true := by
          unfold itemLive
          simp only [hpr, hidx]
          simp [hmatch.1, hmatch.2]
        set r' : LogRecord :=
          { item.1 with key := logRecordKeyWithSeq rk nonTransactionSeqNo } with hr'
        set res := acc.1.appendLogRecord opts r' with hres
        have hstep : mergeStep index opts fid acc item
            = .ok (res.2, acc.2 ++ [(rk, res.1)]) := by
          unfold mergeStep
          simp only [hpr, hidx]
          rw [if_pos hmatch]
        obtain ⟨out, hout, hkeys, hlog⟩ := ih hrest (res.2, acc.2 ++ [(rk, res.1)])
        refine ⟨out, ?_, ?_, ?_⟩
        · unfold mergeFile
          rw [hstep]
          exact hout
        · rw [hkeys]
          unfold liveHintKeys
          rw [List.filter_cons_of_pos (by simp [hlive])]
          simp [hrk]
        · rw [hlog]
          unfold liveRewrites
          rw [List.filter_cons_of_pos (by simp [hlive])]
          have happ : totalLog res.2 = totalLog acc.1 ++ r'.encode := by
            rw [hres]
            exact appendLogRecord_totalLog acc.1 opts r'
          simp only [List.map_cons, List.flatten_cons, hrk]
          rw [happ, hr']
          simp
      · have hstep : mergeStep index opts fid acc item = .ok acc := by
          unfold mergeStep
          simp only [hpr, hidx]
          rw [if_neg hmatch]
        have hdead : itemLive index fid item = false := by
          unfold itemLive
          simp only [hpr, hidx]
          rcases Decidable.not_and_iff_or_not.mp hmatch with h | h
          · simp [h]
          · simp [h]
        obtain ⟨out, hout, hkeys, hlog⟩ := ih hrest acc
        refine ⟨out, ?_, ?_, ?_⟩
        · unfold mergeFile
          rw [hstep]
          exact hout
        · rw [hkeys]
          unfold liveHintKeys
          rw [List.filter_cons_of_neg (by simp [hdead])]
        · rw [hlog]
          unfold liveRewrites
          rw [List.filter_cons_of_neg (by simp [hdead])]

/-- Last element of a file-id list, 0 when empty (`Vec::last` on a list the
code knows is non-empty, src/src/merge.rs line 109). -/
def lastId : List Nat → Nat
  | [] => 0
  | [a] => a
  | _ :: b :: r => lastId (b :: r)

/-- The file ids selected for a merge pass: the older files' ids together
with the just-rotated active file id, sorted ascending
(`Engine::ratate_merge_file`, src/src/merge.rs lines 124-167; the Rust
`Vec::sort` is modelled by insertion sort). -/
def ratateMergeFileIds (olderIds : List Nat) (activeId : Nat) : List Nat :=
  List.insertionSort (· ≤ ·) (olderIds ++ [activeId])

/-- The first file id not participating in the merge: the last merged id
plus one (src/src/merge.rs line 109). -/
def nonMergeFileId (olderIds : List Nat) (activeId : Nat) : Nat :=
  lastId (ratateMergeFileIds olderIds activeId) + 1

/-- Decimal ASCII rendering of a number (`to_string().into_bytes()`). -/
def decimalAscii (n : Nat) : List Nat :=
  (Nat.toDigits 10 n).map Char.toNat

/-- The bytes of `MERGE_FIN_KEY` = "merge.finished" (src/src/merge.rs
line 20). -/
def mergeFinKey : List Nat :=
  [109, 101, 114, 103, 101, 46, 102, 105, 110, 105, 115, 104, 101, 100]

/-- The merge-completion marker record (src/src/merge.rs lines 110-115): a
NORMAL record whose value is the non-merged boundary in decimal. -/
def mergeFinRecord (olderIds : List Nat) (activeId : Nat) : LogRecord :=
  ⟨mergeFinKey, decimalAscii (nonMergeFileId olderIds activeId), .normal⟩

/-- The last element of a non-empty list is one of its elements. -/
theorem lastId_mem : ∀ {l : List Nat}, l ≠ [] → lastId l ∈ l := by
  intro l
  induction l with
  | nil => intro h; exact absurd rfl h
  | cons a r ih =>
    intro _
    cases r with
    | nil => simp [lastId]
    | cons b r' =>
      have : lastId (a :: b :: r') = lastId (b :: r') := rfl
      rw [this]
      exact List.mem_cons_of_mem a (ih (by simp))

/-- In an ascending-sorted list every element is at most the last one. -/
theorem sorted_le_lastId : ∀ {l : List Nat}, l.Sorted (· ≤ ·) →
    ∀ x ∈ l, x ≤ lastId l := by
  intro l
  induction l with
  | nil => intro _ x hx; simp at hx
  | cons a r ih =>
    intro hs x hx
    rw [List.sorted_cons] at hs
    obtain ⟨hub, hr⟩ := hs
    cases r with
    | nil =>
      simp at hx
      simp [hx, lastId]
    | cons b r' =>
      have hlast : lastId (a :: b :: r') = lastId (b :: r') := rfl
      rw [hlast]
      rcases List.mem_cons.mp hx with hxa | hxr
      · subst hxa
        exact hub _ (lastId_mem (by simp))
      · exact ih hr _ hxr

/-- The non-merged boundary is the successor of one of the merged file
ids... -/
theorem nonMergeFileId_mem (olderIds : List Nat) (activeId : Nat) :
    nonMergeFileId olderIds activeId - 1 ∈ olderIds ++ [activeId] := by
  unfold nonMergeFileId
  rw [Nat.add_sub_cancel]
  have hne : ratateMergeFileIds olderIds activeId ≠ [] := by
    unfold ratateMergeFileIds
    intro h
    have := List.perm_insertionSort (· ≤ ·) (olderIds ++ [activeId])
    rw [h] at this
    have := this.length_eq
    simp at this
  have := lastId_mem hne
  exact (List.perm_insertionSort (· ≤ ·) (olderIds ++ [activeId])).mem_iff.mp this

/-- ... and strictly exceeds every merged file id: the boundary equals the
maximum merged id plus one. -/
theorem nonMergeFileId_gt (olderIds : List Nat) (activeId : Nat) :
    ∀ x ∈ olderIds ++ [activeId], x < nonMergeFileId olderIds activeId := by
  intro x hx
  unfold nonMergeFileId
  have hsorted : (ratateMergeFileIds olderIds activeId).Sorted (· ≤ ·) :=
    List.sorted_insertionSort (· ≤ ·) (olderIds ++ [activeId])
  have hmem : x ∈ ratateMergeFileIds olderIds activeId :=
    (List.perm_insertionSort (· ≤ ·) (olderIds ++ [activeId])).mem_iff.mpr hx
  exact Nat.lt_succ_of_le (sorted_le_lastId hsorted x hmem)

/-! ## Write batches (`src/src/batch.rs`) -/

/-- The bytes of `TXN_FIN_KEY` = "txn-fin" (src/src/batch.rs line 18). -/
def txnFinKey : List Nat := [116, 120, 110, 45, 102, 105, 110]

/-- The first loop of `WriteBatch::commit` (src/src/batch.rs lines
103-113): append every pending record rewritten with the batch's sequence
number, collecting each raw key's new position in the `positions` map
(`HashMap::insert` overwrites, modelled by `idxPut`). A pending entry is
`(key, record)` as stored by `WriteBatch::put` / `WriteBatch::delete`. -/
def batchAppendAll (opts : Options) (seqNo : Nat) :
    List (List Nat × LogRecord) → EngineState → IndexMap → EngineState × IndexMap
  | [], s, positions => (s, positions)
  | (_, item) :: rest, s, positions =>
    let res := s.appendLogRecord opts
      ⟨logRecordKeyWithSeq item.key seqNo, item.value, item.recType⟩
    batchAppendAll opts seqNo rest res.2 (idxPut positions item.key res.1).2

/-- The second loop of `WriteBatch::commit` (src/src/batch.rs lines
129-151): after the finaliser is on disk, apply every pending record to
the index — `positions.get(..).unwrap()` panics on a missing entry; a
NORMAL record is a put whose displaced position's size is reclaimed, a
DELETE record reclaims its own size plus the displaced position's. -/
def batchApplyIndex (positions : IndexMap) :
    List (List Nat × LogRecord) → IndexMap → Nat → RRes (IndexMap × Nat)
  | [], idx, reclaim => .ok (idx, reclaim)
  | (_, item) :: rest, idx, reclaim =>
    match idxGet positions item.key with
    | none => .panics
    | some recordPos =>
      if item.recType = .normal then
        let old := (idxPut idx item.key recordPos).1
        batchApplyIndex positions rest (idxPut idx item.key recordPos).2
          (reclaim + (match old with | some op => op.size | none => 0))
      else if item.recType = .delete then
        let old := (idxDelete idx item.key).1
        batchApplyIndex positions rest (idxDelete idx item.key).2
          (reclaim + (recordPos.size + (match old with | some op => op.size | none => 0)))
      else batchApplyIndex positions rest idx reclaim

/-- `WriteBatch::commit` (src/src/batch.rs lines 87-158): an empty pending
set commits trivially; a pending set larger than `max_batch_num` is
rejected; otherwise allocate a fresh sequence number (`fetch_add`), append
every pending record rewritten with it, append one TxnFinished record with
the same number, then apply the batch to the index and clear the pending
set. The result carries the new engine state and the cleared pending
set. -/
def batchCommit (opts : Options) (maxBatchNum : Nat)
    (pending : List (List Nat × LogRecord)) (s : EngineState) :
    RRes (EngineState × List (List Nat × LogRecord)) :=
  if pending = [] then .ok (s, pending)
  else if maxBatchNum < pending.length then .err .exceedMaxBatchNum
  else
    let seqNo := s.seqNo
    let res := batchAppendAll opts seqNo pending { s with seqNo := s.seqNo + 1 } []
    let finRes := res.1.appendLogRecord opts
      ⟨logRecordKeyWithSeq txnFinKey seqNo, [], .txnFinished⟩
    match batchApplyIndex res.2 pending finRes.2.index finRes.2.reclaimSize with
    | .panics => .panics
    | .err e => .err e
    | .ok (idx, reclaim) =>
      .ok ({ finRes.2 with index := idx, reclaimSize := reclaim }, [])

/-- An append never touches the sequence-number counter. -/
theorem appendLogRecord_seqNo (s : EngineState) (opts : Options) (r : LogRecord) :
    (s.appendLogRecord opts r).2.seqNo = s.seqNo := by
  unfold EngineState.appendLogRecord
  dsimp only
  split <;> rfl

/-- The first commit loop appends exactly the pending records rewritten
with the batch sequence number, in order. -/
theorem batchAppendAll_totalLog (opts : Options) (q : Nat) :
    ∀ (pending : List (List Nat × LogRecord)) (s : EngineState) (positions : IndexMap),
      totalLog (batchAppendAll opts q pending s positions).1
        = totalLog s ++ (pending.map fun e =>
            (LogRecord.mk (logRecordKeyWithSeq e.2.key q) e.2.value e.2.recType).encode).flatten := by
  intro pending
  induction pending with
  | nil => intro s positions; simp [batchAppendAll]
  | cons e rest ih =>
    intro s positions
    obtain ⟨k0, item⟩ := e
    show totalLog (batchAppendAll opts q rest _ _).1 = _
    rw [ih]
    rw [appendLogRecord_totalLog]
    simp

/-- The first commit loop never touches the sequence-number counter. -/
theorem batchAppendAll_seqNo (opts : Options) (q : Nat) :
    ∀ (pending : List (List Nat × LogRecord)) (s : EngineState) (positions : IndexMap),
      (batchAppendAll opts q pending s positions).1.seqNo = s.seqNo := by
  intro pending
  induction pending with
  | nil => intro s positions; rfl
  | cons e rest ih =>
    intro s positions
    obtain ⟨k0, item⟩ := e
    show (batchAppendAll opts q rest _ _).1.seqNo = _
    rw [ih, appendLogRecord_seqNo]

/-- A present positions entry stays present across further inserts. -/
theorem idxGet_put_isSome (m : IndexMap) (k' k : List Nat) (p : LogRecordPos)
    (h : (idxGet m k).isSome = true) :
    (idxGet (idxPut m k' p).2 k).isSome = true := by
  by_cases hk : k = k'
  · subst hk
    rw [idxGet_put_self]
    rfl
  · rw [idxGet_put_ne m p (Ne.symm hk)]
    exact h

/-- Positions present before the first commit loop are still present after
it. -/
theorem batchAppendAll_positions_mono (opts : Options) (q : Nat) :
    ∀ (pending : List (List Nat × LogRecord)) (s : EngineState) (positions : IndexMap)
      (k : List Nat), (idxGet positions k).isSome = true →
      (idxGet (batchAppendAll opts q pending s positions).2 k).isSome = true := by
  intro pending
  induction pending with
  | nil => intro s positions k h; exact h
  | cons e rest ih =>
    intro s positions k h
    obtain ⟨k0, item⟩ := e
    show (idxGet (batchAppendAll opts q rest _ _).2 k).isSome = true
    exact ih _ _ k (idxGet_put_isSome _ _ _ _ h)

/-- After the first commit loop the positions map has an entry for every
pending record's key. -/
theorem batchAppendAll_positions_covers (opts : Options) (q : Nat) :
    ∀ (pending : List (List Nat × LogRecord)) (s : EngineState) (positions : IndexMap),
      ∀ e ∈ pending,
        (idxGet (batchAppendAll opts q pending s positions).2 e.2.key).isSome = true := by
  intro pending
  induction pending with
  | nil => intro s positions e he; simp at he
  | cons e0 rest ih =>
    intro s positions e he
    obtain ⟨k0, item⟩ := e0
    rcases List.mem_cons.mp he with he0 | her
    · subst he0
      show (idxGet (batchAppendAll opts q rest _ _).2 item.key).isSome = true
      refine batchAppendAll_positions_mono opts q rest _ _ item.key ?_
      rw [idxGet_put_self]
      rfl
    · exact ih _ _ e her

/-- When the positions map covers every pending key, the index-application
loop succeeds. -/
theorem batchApplyIndex_ok (positions : IndexMap) :
    ∀ (pending : List (List Nat × LogRecord)) (idx : IndexMap) (reclaim : Nat),
      (∀ e ∈ pending, (idxGet positions e.2.key).isSome = true) →
      ∃ out, batchApplyIndex positions pending idx reclaim = .ok out := by
  intro pending
  induction pending with
  | nil => intro idx reclaim _; exact ⟨(idx, reclaim), rfl⟩
  | cons e rest ih =>
    intro idx reclaim hcov
    obtain ⟨k0, item⟩ := e
    have hsome := hcov (k0, item) (by simp)
    obtain ⟨p, hp⟩ : ∃ p, idxGet positions item.key = some p := by
      cases h : idxGet positions item.key with
      | none => rw [h] at hsome; simp at hsome
      | some p => exact ⟨p, rfl⟩
    have hrest : ∀ e ∈ rest, (idxGet positions e.2.key).isSome = true :=
      fun e he => hcov e (List.mem_cons_of_mem _ he)
    show ∃ out, (match idxGet positions item.key with
      | none => RRes.panics
      | some recordPos =>
        if item.recType = LogRecordType.normal then
          batchApplyIndex positions rest (idxPut idx item.key recordPos).2
            (reclaim + (match (idxPut idx item.key recordPos).1 with
              | some op => op.size | none => 0))
        else if item.recType = LogRecordType.delete then
          batchApplyIndex positions rest (idxDelete idx item.key).2
            (reclaim + (recordPos.size + (match (idxDelete idx item.key).1 with
              | some op => op.size | none => 0)))
        else batchApplyIndex positions rest idx reclaim) = .ok out
    simp only [hp]
    by_cases hn : item.recType = .normal
    · rw [if_pos hn]
      exact ih _ _ hrest
    · rw [if_neg hn]
      by_cases hd : item.recType = .delete
      · rw [if_pos hd]
        exact ih _ _ hrest
      · rw [if_neg hd]
        exact ih _ _ hrest

/-! ## Iterator (`src/src/iterator.rs`) -/

/-- `Iterator::next` (src/src/iterator.rs lines 58-68): take the next
index-iterator entry if any and fetch its value through
`Engine::get_value_by_position`; the `.expect("failed to get value from
data file")` turns every error of that read into a panic, so the method
either yields a pair, yields nothing, or panics. -/
def iteratorNext (s : EngineState) (entry : Option (List Nat × LogRecordPos)) :
    RRes (Option (List Nat × List Nat)) :=
  match entry with
  | none => .ok none
  | some item =>
    match s.getValueByPosition item.2 with
    | .ok v => .ok (some (item.1, v))
    | .err _ => .panics
    | .panics => .panics

/-! ## The claims -/

/-- A freshly opened engine over an empty directory: active file 0, empty,
no older files, empty index, counters at zero. -/
def engine0 : EngineState := ⟨0, [], 0, [], [], 0, 0, 0⟩

/-- Default-like options: 256 MiB data files, no fsync on every write. -/
def opts0 : Options := ⟨268435456, false, 0⟩

/-- A 128-byte value: the smallest value whose length delimiter needs two
varint bytes. -/
def value128 : List Nat := List.replicate 128 7

/-- The engine state after `put [97] value128` on a fresh engine. -/
def engineAfterPut : EngineState :=
  (engine0.put opts0 [97] value128).okOr engine0

set_option maxRecDepth 100000 in
/-- C1: read-your-writes fails in the code as written.  `put` of the
one-byte key `[97]` and a 128-byte value succeeds, but the subsequent `get`
of the same key panics instead of returning the value: the reader allots
`max_log_record_header_size() = 1 + length_delimiter_len(4) * 2 = 3` bytes
for the framing prefix, the record's actual prefix occupies 4 bytes
(type + 1-byte key length + 2-byte value length), and the truncated value
varint makes the prost decode `unwrap` panic. -/
theorem claim_C1 :
    engine0.put opts0 [97] value128 = .ok engineAfterPut ∧
    engineAfterPut.get [97] = .panics := by decide

/-- Positions and a singleton bucket used to exhibit C3's divergence. -/
def posA : LogRecordPos := ⟨1, 2, 3⟩

/-- A second position displacing `posA`. -/
def posB : LogRecordPos := ⟨4, 5, 6⟩

/-- C3: the index backends do not agree with the position-returning
interface.  On a store holding key `[1]` at `posA`, the B+-tree backend's
put and delete return the displaced `posA`, but the in-memory tree and the
skiplist backends return the boolean `true` — they implement the older
boolean-returning trait, not the normative displaced-position one. -/
theorem claim_C3 :
    (bptreePut [([1], posA.encode)] [1] posB).1 = some posA ∧
    (bptreeDelete [([1], posA.encode)] [1]).1 = some posA ∧
    (btreePut [([1], posA)] [1] posB).1 = true ∧
    (btreeDelete [([1], posA)] [1]).1 = true ∧
    (skipListPut [([1], posA)] [1] posB).1 = true ∧
    (skipListDelete [([1], posA)] [1]).1 = true := by decide

/-- The record of C4's failing input: non-empty key, 128-byte value. -/
def record128 : LogRecord := ⟨[97], value128, .normal⟩

set_option maxRecDepth 100000 in
/-- C4: the codec roundtrip fails.  The spec says readers allot the
11-byte maximum framing prefix, but `max_log_record_header_size()` in the
code is `1 + length_delimiter_len(4) * 2 = 3` bytes, so reading back the
encoding of a record with a 128-byte value (whose real prefix is 4 bytes)
panics instead of returning the record. -/
theorem claim_C4 :
    maxLogRecordHeaderSize = 3 ∧
    readLogRecord record128.encode 0 = .panics := by decide

/-- C2: the recovery scan's transaction discipline.  For every record whose
key parses to `(relKey, q)` with `q ≠ 0`: (i) when it is not a finalizer,
the scan step buffers it at the end of transaction `q`'s buffer and leaves
the index and reclaim counter untouched; (ii) when it is a TXN_FINISHED
finalizer and a buffer exists, the scan step applies the whole buffer to
the index and drops it; (iii) a scan of a stream containing no finalizer
for `q` builds the same index and reclaim counter as the scan of the same
stream with all of transaction `q`'s records removed — unfinalized records
never reach the index. -/
theorem claim_C2 {fid : Nat} {r : LogRecord} {off sz : Nat}
    {relKey : List Nat} {q : Nat}
    (hparse : parseLogRecordKey r.key = some (relKey, q)) (hq : q ≠ 0) :
    (r.recType ≠ .txnFinished → ∀ st : ScanState,
      ∃ st', scanStep st fid (r, off, sz) = .ok st' ∧
        st'.index = st.index ∧ st'.reclaimSize = st.reclaimSize ∧
        txnLookup st'.txnRecords q
          = some ((txnLookup st.txnRecords q).getD []
              ++ [⟨⟨relKey, r.value, r.recType⟩, ⟨fid, off, sz⟩⟩])) ∧
    (r.recType = .txnFinished → ∀ (st : ScanState) (records : List TransactionRecord),
      txnLookup st.txnRecords q = some records →
      ∃ st', scanStep st fid (r, off, sz) = .ok st' ∧
        st'.index = (applyTxnRecords records st.index st.reclaimSize).1 ∧
        st'.reclaimSize = (applyTxnRecords records st.index st.reclaimSize).2 ∧
        txnLookup st'.txnRecords q = none) ∧
    (∀ items : List (LogRecord × Nat × Nat),
      (∀ item ∈ items, ¬(itemSeqNo item = some q ∧ item.1.recType = .txnFinished)) →
      ∀ st : ScanState,
        ScanAgreeR q (scanItems fid items st)
          (scanItems fid (items.filter (fun it => !(itemPendingOf q it))) st)) := by
  refine ⟨?_, ?_, ?_⟩
  · intro ht st
    obtain ⟨st', hstep, hidx, hrec, hbuf, _⟩ := scanStep_buffers hparse hq ht
    exact ⟨st', hstep, hidx, hrec, hbuf⟩
  · intro ht st records hbuf
    exact scanStep_finalizes hparse hq ht hbuf
  · intro items hnofin st
    exact scanItems_discard hq fid items hnofin ⟨rfl, rfl, fun _ _ => rfl⟩

/-- Witness for C2 at a concrete input: key `[1, 107]` parses to raw key
`[107]` with seq_no 1. -/
theorem claim_C2_witness :
    ((LogRecord.mk [1, 107] [118] .normal).recType ≠ .txnFinished → ∀ st : ScanState,
      ∃ st', scanStep st 0 (⟨[1, 107], [118], .normal⟩, 0, 9) = .ok st' ∧
        st'.index = st.index ∧ st'.reclaimSize = st.reclaimSize ∧
        txnLookup st'.txnRecords 1
          = some ((txnLookup st.txnRecords 1).getD []
              ++ [⟨⟨[107], [118], .normal⟩, ⟨0, 0, 9⟩⟩])) ∧
    ((LogRecord.mk [1, 107] [118] .normal).recType = .txnFinished →
      ∀ (st : ScanState) (records : List TransactionRecord),
      txnLookup st.txnRecords 1 = some records →
      ∃ st', scanStep st 0 (⟨[1, 107], [118], .normal⟩, 0, 9) = .ok st' ∧
        st'.index = (applyTxnRecords records st.index st.reclaimSize).1 ∧
        st'.reclaimSize = (applyTxnRecords records st.index st.reclaimSize).2 ∧
        txnLookup st'.txnRecords 1 = none) ∧
    (∀ items : List (LogRecord × Nat × Nat),
      (∀ item ∈ items, ¬(itemSeqNo item = some 1 ∧ item.1.recType = .txnFinished)) →
      ∀ st : ScanState,
        ScanAgreeR 1 (scanItems 0 items st)
          (scanItems 0 (items.filter (fun it => !(itemPendingOf 1 it))) st)) :=
  claim_C2 (by decide) (by decide)

/-- The record of C5's counterexample: a DELETE tombstone for key `[97]`.
Its encoding starts `[2, 1, 0, ...]` (type, key length 1, value length 0). -/
def tombstone97 : LogRecord := ⟨[97], [], .delete⟩

/-- C5 counterexample: a single-bit flip inside the CRC-covered record
body is NOT always rejected with `InvalidRecordCrc`.  Flipping bit 0 of
byte 1 (the key-length varint, covered by the checksum) turns both length
fields to zero, and the reader reports `ReadDataFileEof` instead. -/
theorem claim_C5_counterexample :
    readLogRecord (flipByte tombstone97.encode 1 0) 0 = .err .readDataFileEof ∧
    (.err .readDataFileEof : RRes (LogRecord × Nat)) ≠ .err .invaildLogRecordCrc := by
  decide

/-- C5 (amended): a single-bit flip in a *payload* byte — any byte of the
key or the value, i.e. positions `[3, 3 + key_len + val_len)` of a
small-record encoding — is rejected with `InvalidRecordCrc`: the CRC-32
recomputed over the framing prefix, key and value disagrees with the
stored trailing 4 bytes. -/
theorem claim_C5 (r : LogRecord) (pre suf : List Nat) (i m : Nat)
    (hk : r.key.length < 128) (hkne : r.key ≠ []) (hv : r.value.length < 128)
    (ht : r.recType ≠ .txnFinished) (hi3 : 3 ≤ i)
    (hiub : i < 3 + r.key.length + r.value.length) (hm : m < 8) :
    readLogRecord (pre ++ flipByte r.encode i m ++ suf) pre.length
      = .err .invaildLogRecordCrc :=
  readLogRecord_flip r pre suf i m hk hkne hv ht hi3 hiub hm

/-- Witness for C5 at a concrete input: flipping bit 0 of byte 3 (the
key byte) of the record `(key [97], value [98], NORMAL)`. -/
theorem claim_C5_witness :
    readLogRecord ([] ++ flipByte (LogRecord.mk [97] [98] .normal).encode 3 0 ++ [])
      (List.length ([] : List Nat)) = .err .invaildLogRecordCrc :=
  claim_C5 ⟨[97], [98], .normal⟩ [] [] 3 0 (by decide) (by decide) (by decide)
    (by decide) (by decide) (by decide) (by decide)

/-- C6: the merge pass.  (i) Over any stream of decoded records whose keys
parse, the rewrite loop succeeds, appends a hint entry for exactly the
records the live index maps to this file id and offset (in scan order),
and grows the inner engine's log by exactly those records re-encoded with
their sequence numbers stripped to 0.  (ii) The merge-completion marker is
a NORMAL record whose value is the decimal text of the non-merged
boundary, and that boundary is the maximum merged file id plus one: its
predecessor is a merged id and it strictly exceeds every merged id. -/
theorem claim_C6 (index : IndexMap) (opts : Options) (fid : Nat)
    (items : List (LogRecord × Nat × Nat))
    (hparse : ∀ item ∈ items, (parseLogRecordKey item.1.key).isSome = true)
    (acc : EngineState × List (List Nat × LogRecordPos))
    (olderIds : List Nat) (activeId : Nat) :
    (∃ out, mergeFile index opts fid items acc = .ok out ∧
        out.2.map Prod.fst = acc.2.map Prod.fst ++ liveHintKeys index fid items ∧
        totalLog out.1 = totalLog acc.1 ++
          ((liveRewrites index fid items).map LogRecord.encode).flatten) ∧
    (mergeFinRecord olderIds activeId).value
        = decimalAscii (nonMergeFileId olderIds activeId) ∧
    (mergeFinRecord olderIds activeId).recType = .normal ∧
    nonMergeFileId olderIds activeId - 1 ∈ olderIds ++ [activeId] ∧
    (∀ x ∈ olderIds ++ [activeId], x < nonMergeFileId olderIds activeId) :=
  ⟨mergeFile_ok index opts fid items hparse acc, rfl, rfl,
    nonMergeFileId_mem olderIds activeId, nonMergeFileId_gt olderIds activeId⟩

/-- Witness for C6 at a concrete input: one live record in file 5, older
ids `[0, 1]`, active id 2. -/
theorem claim_C6_witness :
    (∃ out, mergeFile [([107], ⟨5, 0, 9⟩)] opts0 5
          [(⟨[0, 107], [118], .normal⟩, 0, 9)] (engine0, []) = .ok out ∧
        out.2.map Prod.fst
          = ([] : List (List Nat × LogRecordPos)).map Prod.fst
              ++ liveHintKeys [([107], ⟨5, 0, 9⟩)] 5
                  [(⟨[0, 107], [118], .normal⟩, 0, 9)] ∧
        totalLog out.1 = totalLog engine0 ++
          ((liveRewrites [([107], ⟨5, 0, 9⟩)] 5
              [(⟨[0, 107], [118], .normal⟩, 0, 9)]).map LogRecord.encode).flatten) ∧
    (mergeFinRecord [0, 1] 2).value = decimalAscii (nonMergeFileId [0, 1] 2) ∧
    (mergeFinRecord [0, 1] 2).recType = .normal ∧
    nonMergeFileId [0, 1] 2 - 1 ∈ [0, 1] ++ [2] ∧
    (∀ x ∈ [0, 1] ++ [2], x < nonMergeFileId [0, 1] 2) :=
  claim_C6 [([107], ⟨5, 0, 9⟩)] opts0 5 [(⟨[0, 107], [118], .normal⟩, 0, 9)]
    (by decide) (engine0, []) [0, 1] 2

/-- The skip test as the spec words it: the boundary is 1 when no merge
marker (hint) exists, otherwise the recorded boundary; files below the
boundary are skipped.  Written from the spec for comparison with
`fileSkipped`, the code's test. -/
def fileSkippedSpec (hasMerge : Bool) (nonMergeFid fid : Nat) : Bool :=
  decide (fid < (if hasMerge then nonMergeFid else 1))

/-- The multi-file scan as the spec words it: same loop as
`loadIndexFromDataFiles` but with the spec's skip test. -/
def loadIndexFromDataFilesSpec (hasMerge : Bool) (nonMergeFid : Nat) :
    List (Nat × List (LogRecord × Nat × Nat)) → ScanState → RRes ScanState
  | [], st => .ok st
  | (fid, items) :: rest, st =>
    if fileSkippedSpec hasMerge nonMergeFid fid then
      loadIndexFromDataFilesSpec hasMerge nonMergeFid rest st
    else
      match scanItems fid items st with
      | .ok st' => loadIndexFromDataFilesSpec hasMerge nonMergeFid rest st'
      | .err e => .err e
      | .panics => .panics

/-- Unfolding equation of the multi-file scan on a cons. -/
theorem loadIndexFromDataFiles_cons (hasMerge : Bool) (nonMergeFid fid : Nat)
    (items : List (LogRecord × Nat × Nat))
    (rest : List (Nat × List (LogRecord × Nat × Nat))) (st : ScanState) :
    loadIndexFromDataFiles hasMerge nonMergeFid ((fid, items) :: rest) st
      = if fileSkipped hasMerge nonMergeFid fid then
          loadIndexFromDataFiles hasMerge nonMergeFid rest st
        else
          match scanItems fid items st with
          | .ok st' => loadIndexFromDataFiles hasMerge nonMergeFid rest st'
          | .err e => .err e
          | .panics => .panics := rfl

/-- The multi-file scan processes exactly the files that pass the skip
test: it equals the scan of the filtered file list. -/
theorem loadIndexFromDataFiles_filter (hasMerge : Bool) (nonMergeFid : Nat) :
    ∀ (files : List (Nat × List (LogRecord × Nat × Nat))) (st : ScanState),
      loadIndexFromDataFiles hasMerge nonMergeFid files st
        = loadIndexFromDataFiles hasMerge nonMergeFid
            (files.filter fun e => !(fileSkipped hasMerge nonMergeFid e.1)) st := by
  intro files
  induction files with
  | nil => intro st; rfl
  | cons e rest ih =>
    intro st
    obtain ⟨fid, items⟩ := e
    by_cases hskip : fileSkipped hasMerge nonMergeFid fid = true
    · rw [List.filter_cons_of_neg (by simp [hskip])]
      rw [loadIndexFromDataFiles_cons, if_pos hskip]
      exact ih st
    · have hskip' : fileSkipped hasMerge nonMergeFid fid = false := by
        cases h : fileSkipped hasMerge nonMergeFid fid
        · rfl
        · exact absurd h hskip
      rw [List.filter_cons_of_pos (by simp [hskip'])]
      rw [loadIndexFromDataFiles_cons, loadIndexFromDataFiles_cons,
        if_neg (by simp [hskip']), if_neg (by simp [hskip'])]
      cases hscan : scanItems fid items st with
      | ok st' => exact ih st'
      | err e => rfl
      | panics => rfl

/-- C7 counterexample: with no merge marker the spec's boundary of 1 would
skip data file 0, but the code skips nothing — on a directory whose only
file is file 0, the spec's loop leaves the index empty while the code's
loop loads file 0's record into the index. -/
theorem claim_C7_counterexample :
    fileSkippedSpec false 1 0 = true ∧
    fileSkipped false 1 0 = false ∧
    loadIndexFromDataFilesSpec false 1
        [(0, [(⟨[0, 107], [118], .normal⟩, 0, 9)])] ⟨[], 0, [], 0⟩
      = .ok ⟨[], 0, [], 0⟩ ∧
    loadIndexFromDataFiles false 1
        [(0, [(⟨[0, 107], [118], .normal⟩, 0, 9)])] ⟨[], 0, [], 0⟩
      = .ok ⟨[([107], ⟨0, 0, 9⟩)], 0, [], 0⟩ := by decide

/-- C7 (amended): when a merge marker exists the engine skips exactly the
data files with id below the recorded boundary; when no marker exists it
skips nothing (it rescans every file, file 0 included — not "boundary 1").
The multi-file scan equals the scan of the skip-filtered file list. -/
theorem claim_C7 :
    (∀ nonMergeFid fid : Nat, fileSkipped true nonMergeFid fid = true ↔ fid < nonMergeFid) ∧
    (∀ nonMergeFid fid : Nat, fileSkipped false nonMergeFid fid = false) ∧
    (∀ (hasMerge : Bool) (nonMergeFid : Nat)
        (files : List (Nat × List (LogRecord × Nat × Nat))) (st : ScanState),
      loadIndexFromDataFiles hasMerge nonMergeFid files st
        = loadIndexFromDataFiles hasMerge nonMergeFid
            (files.filter fun e => !(fileSkipped hasMerge nonMergeFid e.1)) st) :=
  ⟨fun nonMergeFid fid => by simp [fileSkipped],
   fun nonMergeFid fid => by simp [fileSkipped],
   loadIndexFromDataFiles_filter⟩

/-- Replacing the index and reclaim counter leaves the log bytes alone. -/
theorem totalLog_set_index (x : EngineState) (i : IndexMap) (rc : Nat) :
    totalLog { x with index := i, reclaimSize := rc } = totalLog x := rfl

/-- C8: `WriteBatch::commit`.  An empty pending set commits as a no-op
returning OK; a pending set larger than `max_batch_num` is rejected with
`ExceedMaxBatchNum` (no state is produced, so log and index are
untouched); otherwise the commit succeeds, bumps the engine's sequence
counter by one, clears the pending set, and extends the log by exactly the
pending records rewritten with the freshly allocated sequence number
followed by one TxnFinished finaliser with that same number — the index
application (with reclaim accounting) happening only on this completed
log. -/
theorem claim_C8 (opts : Options) (maxBatchNum : Nat)
    (pending : List (List Nat × LogRecord)) (s : EngineState) :
    (pending = [] → batchCommit opts maxBatchNum pending s = .ok (s, [])) ∧
    (pending ≠ [] → maxBatchNum < pending.length →
      batchCommit opts maxBatchNum pending s = .err .exceedMaxBatchNum) ∧
    (pending ≠ [] → pending.length ≤ maxBatchNum →
      ∃ s', batchCommit opts maxBatchNum pending s = .ok (s', []) ∧
        s'.seqNo = s.seqNo + 1 ∧
        totalLog s' = totalLog s
          ++ (pending.map fun e =>
              (LogRecord.mk (logRecordKeyWithSeq e.2.key s.seqNo)
                e.2.value e.2.recType).encode).flatten
          ++ (LogRecord.mk (logRecordKeyWithSeq txnFinKey s.seqNo)
              [] .txnFinished).encode) := by
  refine ⟨?_, ?_, ?_⟩
  · intro hempty
    subst hempty
    rfl
  · intro hne hlt
    unfold batchCommit
    rw [if_neg hne, if_pos hlt]
  · intro hne hle
    unfold batchCommit
    rw [if_neg hne, if_neg (not_lt.mpr hle)]
    have hcover : ∀ e ∈ pending,
        (idxGet (batchAppendAll opts s.seqNo pending
          { s with seqNo := s.seqNo + 1 } []).2 e.2.key).isSome = true :=
      batchAppendAll_positions_covers opts s.seqNo pending _ [] 
    obtain ⟨out, hap⟩ := batchApplyIndex_ok
      (batchAppendAll opts s.seqNo pending { s with seqNo := s.seqNo + 1 } []).2
      pending _ _ hcover
    dsimp only
    rw [hap]
    refine ⟨_, rfl, ?_, ?_⟩
    · show (_ : EngineState).seqNo = s.seqNo + 1
      rw [appendLogRecord_seqNo, batchAppendAll_seqNo]
    · rw [totalLog_set_index, appendLogRecord_totalLog, batchAppendAll_totalLog]
      have hsame : totalLog { s with seqNo := s.seqNo + 1 } = totalLog s := rfl
      rw [hsame]

/-- Witness for C8 at a concrete input: one pending NORMAL record for key
`[107]`, `max_batch_num` 5, fresh engine. -/
theorem claim_C8_witness :
    ∃ s', batchCommit opts0 5 [([107], ⟨[107], [118], .normal⟩)] engine0
        = .ok (s', []) ∧
      s'.seqNo = engine0.seqNo + 1 ∧
      totalLog s' = totalLog engine0
        ++ (([([107], ⟨[107], [118], .normal⟩)].map
            (fun e : List Nat × LogRecord =>
              (LogRecord.mk (logRecordKeyWithSeq e.2.key engine0.seqNo)
                e.2.value e.2.recType).encode)).flatten)
        ++ (LogRecord.mk (logRecordKeyWithSeq txnFinKey engine0.seqNo)
            [] .txnFinished).encode :=
  (claim_C8 opts0 5 [([107], ⟨[107], [118], .normal⟩)] engine0).2.2
    (by decide) (by decide)

/-- C9: the seq-no key prefix round-trips.  For every raw key (the empty
key included) and every sequence number in the range of `usize`, parsing
the on-disk key built by `log_record_key_with_seq` recovers exactly the
raw key and the sequence number. -/
theorem claim_C9 (k : List Nat) (n : Nat) (h : n < 2 ^ 64) :
    parseLogRecordKey (logRecordKeyWithSeq k n) = some (k, n) := by
  have h10 : n < 128 ^ 10 := by
    have : (2 : Nat) ^ 64 ≤ 128 ^ 10 := by norm_num
    omega
  unfold parseLogRecordKey logRecordKeyWithSeq
  rw [decodeLengthDelimiter_encode k h10]

/-- Witness for C9 at a concrete input: key `[9, 8]`, sequence number
300. -/
theorem claim_C9_witness :
    300 < 2 ^ 64 ∧
    parseLogRecordKey (logRecordKeyWithSeq [9, 8] 300) = some ([9, 8], 300) :=
  ⟨by norm_num, claim_C9 [9, 8] 300 (by norm_num)⟩

/-- C10: the public iterator's `next` never surfaces an error value.  For
every engine state and index entry it either yields a pair, yields
nothing, or panics; and whenever the position-read path fails with any
error (for instance `DataFileNotFound` for an unmapped file id, or
`KeyNotFound` for a DELETE tombstone read back), `next` panics through its
`.expect` instead of returning that error. -/
theorem claim_C10 :
    (∀ (s : EngineState) (entry : Option (List Nat × LogRecordPos)) (e : Errors),
      iteratorNext s entry ≠ .err e) ∧
    (∀ (s : EngineState) (item : List Nat × LogRecordPos) (e : Errors),
      s.getValueByPosition item.2 = .err e → iteratorNext s (some item) = .panics) := by
  constructor
  · intro s entry e
    cases entry with
    | none => simp [iteratorNext]
    | some item =>
      unfold iteratorNext
      cases h : s.getValueByPosition item.2 <;> simp [h]
  · intro s item e h
    simp only [iteratorNext, h]

/-- Witness for C10 at a concrete input: on a fresh engine an index entry
pointing into the non-existent file 3 makes the position read fail with
`DataFileNotFound`, and `next` panics. -/
theorem claim_C10_witness :
    iteratorNext engine0 (some ([1], ⟨3, 0, 0⟩)) = .panics :=
  claim_C10.2 engine0 ([1], ⟨3, 0, 0⟩) .dataFileNotFound rfl
